import Mathlib

/-!
Verification of the splitter-backend receipt pipeline.

Shallow embedding of the TypeScript sources:
* `src/services/receiptParser.ts` — currency normalization, model-output
  normalization, the deterministic mock fallback and the candidate loop;
* `src/routes/sessions.ts` (`POST /sessions/finalize`) — the allocation
  engine: per-item validation, equal/count split allocation, totals
  derivation;
* `prisma` `sessionHistoryEntry.upsert` and `GET /sessions/history` — the
  settlement store.

JavaScript numbers are modelled as exact rationals (`ℚ`); `Math.round`
is `⌊x + 1/2⌋` (round half toward +∞), which is exactly the JS semantics
on the reals.  Fallible routes return `Except String _`.
-/

set_option maxRecDepth 4096

namespace Splitter

/-- The helper `round2` from `sessions.ts` / `receiptParser.ts`:
`Math.round(n * 100) / 100`, with JS `Math.round x = ⌊x + 1/2⌋`. -/
def round2 (q : ℚ) : ℚ := (⌊q * 100 + 1/2⌋ : ℤ) / 100

/-- A rational that is a whole number of cents. -/
def Cent (q : ℚ) : Prop := ∃ n : ℤ, q = (n : ℚ) / 100

instance {ε α : Type} [DecidableEq ε] [DecidableEq α] : DecidableEq (Except ε α) := fun
  | .error a, .error b =>
    if h : a = b then .isTrue (by rw [h])
    else .isFalse (by intro hc; injection hc; exact h (by assumption))
  | .error _, .ok _ => .isFalse (by intro hc; exact Except.noConfusion hc)
  | .ok _, .error _ => .isFalse (by intro hc; exact Except.noConfusion hc)
  | .ok a, .ok b =>
    if h : a = b then .isTrue (by rw [h])
    else .isFalse (by intro hc; injection hc; exact h (by assumption))

/-! ## Model Gateway (`src/services/receiptParser.ts`)

Strings are manipulated through their character lists.  JS
`String.prototype.toUpperCase` is modelled on the character ranges that
occur in the currency table and its inputs (ASCII and Cyrillic);
`String.prototype.trim` strips Unicode whitespace on both ends. -/

/-- JS `toUpperCase` on one character, restricted to ASCII `a-z` and
Cyrillic `а-я`/`ё` — every character the currency table can meet. -/
def jsCharUpper (c : Char) : Char :=
  if 'a' ≤ c ∧ c ≤ 'z' then Char.ofNat (c.toNat - 32)
  else if 'а' ≤ c ∧ c ≤ 'я' then Char.ofNat (c.toNat - 32)
  else if c = 'ё' then 'Ё'
  else c

/-- JS `toUpperCase` on a string (see `jsCharUpper`). -/
def jsToUpper (s : String) : String := String.mk (s.data.map jsCharUpper)

/-- JS `String.prototype.trim`. -/
def jsTrim (s : String) : String :=
  String.mk (((s.data.dropWhile Char.isWhitespace).reverse.dropWhile Char.isWhitespace).reverse)

/-- The regex test `/^[A-Z]{3}$/.test s`. -/
def isUpper3 (s : String) : Bool :=
  s.data.length = 3 && s.data.all fun c => 'A' ≤ c && c ≤ 'Z'

/-- The replacement `s.replace(/[^A-Za-z]/g, "")`: keep only ASCII letters. -/
def asciiLetters (s : String) : String :=
  String.mk (s.data.filter fun c => ('A' ≤ c && c ≤ 'Z') || ('a' ≤ c && c ≤ 'z'))

/-- The `SYMBOL_TO_ISO` lookup table from `receiptParser.ts`. -/
def SYMBOL_TO_ISO : List (String × String) :=
  [("$", "USD"), ("USD", "USD"), ("US$", "USD"),
   ("€", "EUR"), ("EUR", "EUR"),
   ("£", "GBP"), ("GBP", "GBP"),
   ("¥", "JPY"), ("JPY", "JPY"), ("円", "JPY"),
   ("₽", "RUB"), ("RUB", "RUB"), ("RUR", "RUB"), ("РУБ", "RUB"), ("РУБ.", "RUB"),
   ("₴", "UAH"), ("UAH", "UAH"),
   ("₩", "KRW"), ("KRW", "KRW"),
   ("₦", "NGN"), ("NGN", "NGN"),
   ("₹", "INR"), ("INR", "INR"),
   ("₺", "TRY"), ("TRY", "TRY"),
   ("C$", "CAD"), ("CAD", "CAD"),
   ("A$", "AUD"), ("AUD", "AUD"),
   ("CHF", "CHF"),
   ("HK$", "HKD"), ("HKD", "HKD"),
   ("SG$", "SGD"), ("SGD", "SGD"),
   ("ZAR", "ZAR")]

/-- Reading `SYMBOL_TO_ISO[s]` (JS object property read; keys are unique). -/
def lookupIso (s : String) : Option String :=
  (SYMBOL_TO_ISO.find? fun p => p.1 == s).map (·.2)

def DEFAULT_CURRENCY_CODE : String := "UNKNOWN"

/-- The function `normalizeCurrencyCode` from `receiptParser.ts`, with the early-return
chain written as nested matches. `none` input models a non-string value. -/
def normalizeCurrencyCode (v : Option String) : Option String :=
  match v with
  | none => none
  | some s =>
    let trimmed := jsTrim s
    if trimmed = "" then none
    else
      let directUpper := jsToUpper trimmed
      match lookupIso trimmed with
      | some c => some c
      | none =>
        match lookupIso directUpper with
        | some c => some c
        | none =>
          if isUpper3 directUpper then some directUpper
          else
            let asciiUpper := jsToUpper (asciiLetters trimmed)
            match lookupIso asciiUpper with
            | some c => some c
            | none =>
              if isUpper3 asciiUpper then some asciiUpper
              else
                match (trimmed.data.head?.map fun c => lookupIso (String.mk [c])).join with
                | some c => some c
                | none =>
                  (trimmed.data.getLast?.map fun c => lookupIso (String.mk [c])).join

/-- One decoded model-output line item, before normalization
(loosely-typed JSON: every field may be absent). -/
structure RawItem where
  id : Option String
  name : Option String
  quantity : Option ℚ
  price : Option ℚ
  unitPrice : Option ℚ
  totalPrice : Option ℚ
  kind : Option String
  currency : Option String
  currencyCode : Option String
  currency_code : Option String
deriving DecidableEq

/-- A decoded model output that passed the shape check of `safeParseJson`
(`items` array and `summary` object present). -/
structure RawReceipt where
  items : List RawItem
  summaryCurrency : Option String
  summaryCurrencyCode : Option String
  summaryCurrency_code : Option String
  summaryIsoCurrency : Option String
  currency : Option String
  currencyCode : Option String
  currency_code : Option String
  summaryGrandTotal : Option ℚ
deriving DecidableEq

/-- The candidate list scanned by `extractCurrencyCode`. -/
def currencyCandidates (r : RawReceipt) : List (Option String) :=
  [r.summaryCurrency, r.summaryCurrencyCode, r.summaryCurrency_code,
   r.summaryIsoCurrency, r.currency, r.currencyCode, r.currency_code]
  ++ (r.items.map fun it => [it.currency, it.currencyCode, it.currency_code]).flatten

/-- First candidate that normalizes, else the sentinel. -/
def firstCurrency : List (Option String) → String
  | [] => DEFAULT_CURRENCY_CODE
  | c :: rest =>
    match normalizeCurrencyCode c with
    | some s => s
    | none => firstCurrency rest

/-- The function `extractCurrencyCode` from `receiptParser.ts`. -/
def extractCurrencyCode (r : RawReceipt) : String :=
  firstCurrency (currencyCandidates r)

/-- The shape `ParsedReceiptItem` from `receiptParser.ts`. -/
structure ParsedReceiptItem where
  id : String
  name : String
  unitPrice : ℚ
  quantity : ℚ
  totalPrice : ℚ
  kind : Option String
deriving DecidableEq

structure Summary where
  grandTotal : ℚ
  currency : String
deriving DecidableEq

inductive ParseSource where
  | gemini
  | mock
deriving DecidableEq

structure ParseResult where
  items : List ParsedReceiptItem
  summary : Summary
  source : ParseSource
deriving DecidableEq

/-- The per-item normalization inside `safeParseJson`:
`q = Number(it.quantity ?? 1) || 1`, `unit = Number(it.unitPrice ?? it.price ?? 0) || 0`,
`total = Number(it.totalPrice ?? unit * q) || 0`, money `round2`-ed.
(`|| d` replaces the falsy value `0` — and JS `NaN`, absent in ℚ — by `d`.) -/
def normalizeItem (idx : ℕ) (it : RawItem) : ParsedReceiptItem :=
  let q : ℚ := match it.quantity with
    | none => 1
    | some v => if v = 0 then 1 else v
  let unit : ℚ := match it.unitPrice with
    | some u => u
    | none => match it.price with
      | some p => p
      | none => 0
  let total : ℚ := match it.totalPrice with
    | some t => t
    | none => unit * q
  { id := it.id.getD (toString (idx + 1)),
    name := it.name.getD "Item",
    unitPrice := round2 unit,
    quantity := q,
    totalPrice := round2 total,
    kind := match it.kind with
      | some k => if k = "" then none else some k
      | none => none }

/-- The loop `raw.items.map((it, idx) => ...)` with its running index. -/
def normalizeItems : ℕ → List RawItem → List ParsedReceiptItem
  | _, [] => []
  | i, it :: rest => normalizeItem i it :: normalizeItems (i + 1) rest

/-- The normalization half of `safeParseJson` (the JSON-text decoding is
outside the model; `RawReceipt` is the decoded, shape-checked value):
items normalized, `grandTotal` recomputed from them, currency extracted. -/
def safeParseNormalize (r : RawReceipt) : ParseResult :=
  let items := normalizeItems 0 r.items
  { items := items,
    summary :=
      { grandTotal := round2 ((items.map (·.totalPrice)).sum),
        currency := extractCurrencyCode r },
    source := .gemini }

/-- The fixed item list of `mockParse`. -/
def mockItems : List ParsedReceiptItem :=
  [{ id := "1001", name := "Кола 0.5L", unitPrice := 2, quantity := 6,
     totalPrice := 12, kind := none },
   { id := "1002", name := "Кола (стакан)", unitPrice := 5/2, quantity := 1,
     totalPrice := 5/2, kind := none },
   { id := "FEE1", name := "Сервис", unitPrice := 6/5, quantity := 1,
     totalPrice := 6/5, kind := some "fee" }]

/-- The function `mockParse` from `receiptParser.ts`: the deterministic fallback;
`grandTotal` is the plain sum of the fixed item totals. -/
def mockParse : ParseResult :=
  { items := mockItems,
    summary := { grandTotal := (mockItems.map (·.totalPrice)).sum, currency := "RUB" },
    source := .mock }

/-- The candidate loop of `parseReceipt`: each entry is one model
outcome of one candidate — `none` when the request failed or its output did
not decode to a shape-valid JSON object (`http_error`, `exception`,
`parse_fail`), `some r` when decoding succeeded with value `r`.  The
first success wins; if all fail the mock is returned. -/
def tryCandidates : List (Option RawReceipt) → ParseResult
  | [] => mockParse
  | none :: rest => tryCandidates rest
  | some r :: _ => safeParseNormalize r

/-- The entry point `parseReceipt`: without `GEMINI_API_KEY` the mock is returned at
once, otherwise the candidate loop runs. -/
def parseReceipt (apiKey : Option String) (attempts : List (Option RawReceipt)) :
    ParseResult :=
  match apiKey with
  | none => mockParse
  | some _ => tryCandidates attempts

/-! ## Allocation Engine (`POST /sessions/finalize`, `src/routes/sessions.ts`)

Items arrive as loosely-typed JSON; a request entry that is not an
object (`!raw || typeof raw !== "object"`) is modelled as `none` and is
skipped by the loop.  Participant maps and lists keep caller
order (JS object string keys enumerate in insertion order). -/

structure ParticipantInfo where
  uniqueId : String
  username : String
deriving DecidableEq

inductive SplitMode where
  | equal
  | count
deriving DecidableEq

/-- One element of the `items` array of a finalize request. -/
structure ItemInput where
  id : String
  name : String
  price : Option ℚ
  unitPrice : Option ℚ
  totalPrice : Option ℚ
  quantity : Option ℚ
  kind : Option String
  splitMode : Option SplitMode
  perPersonCount : Option (List (String × ℚ))
  assignedTo : Option (List String)
deriving DecidableEq

/-- One allocation row pushed into `allocs`. -/
structure Alloc where
  itemId : String
  participantId : String
  shareUnits : Option ℚ
  shareRatio : Option ℚ
  shareAmount : ℚ
deriving DecidableEq

/-- The resolution `Number(raw.price ?? raw.unitPrice ?? (raw.totalPrice && quantity ?
Number(raw.totalPrice) / Number(quantity) : NaN))`; `none` models the
`NaN` outcome (`&&` is falsy when either operand is `0` or absent). -/
def resolveUnitPrice (it : ItemInput) : Option ℚ :=
  match it.price with
  | some p => some p
  | none =>
    match it.unitPrice with
    | some u => some u
    | none =>
      match it.totalPrice, it.quantity with
      | some t, some q => if t ≠ 0 ∧ q ≠ 0 then some (t / q) else none
      | _, _ => none

/-- The `splitMode` inference: explicit value, else `count` when a
`perPersonCount` map is present, else `equal`. -/
def inferSplitMode (it : ItemInput) : SplitMode :=
  match it.splitMode with
  | some m => m
  | none =>
    match it.perPersonCount with
    | some _ => .count
    | none => .equal

/-- The first `count`-branch loop: reject an unknown participant or
negative units, and accumulate `sumUnits`. -/
def countSum (pids : List String) : List (String × ℚ) → Except String ℚ
  | [] => .ok 0
  | (pid, u) :: rest =>
    if pids.contains pid = false then
      .error ("Unknown participant in perPersonCount: " ++ pid)
    else if u < 0 then
      .error ("Negative units for " ++ pid)
    else
      match countSum pids rest with
      | .error e => .error e
      | .ok s => .ok (u + s)

/-- The `equal`-branch `forEach`: every assignee but the last gets
`round2 (T * ratio)`; the last gets `round2 (T - allocated)`, where
`allocated` accumulates with `round2` at each step. -/
def equalShares (T ratio : ℚ) : List String → ℚ → List (String × ℚ)
  | [], _ => []
  | [pid], allocated => [(pid, round2 (T - allocated))]
  | pid :: rest₁ :: rest₂, allocated =>
    let s := round2 (T * ratio)
    (pid, s) :: equalShares T ratio (rest₁ :: rest₂) (round2 (allocated + s))

/-- The per-item body of the finalize loop: validation plus the
`count`/`equal` allocation, returning the allocation rows of this item. -/
def allocItem (pids : List String) (it : ItemInput) : Except String (List Alloc) :=
  match resolveUnitPrice it, it.quantity with
  | some up, some qty =>
    if it.id = "" ∨ it.name = "" ∨ qty ≤ 0 then
      .error ("Invalid item fields for id=" ++ it.id)
    else
      match inferSplitMode it with
      | .count =>
        let counts := it.perPersonCount.getD []
        match countSum pids counts with
        | .error e => .error e
        | .ok s =>
          if s ≠ qty then
            .error ("Sum of perPersonCount must equal quantity for item " ++ it.id)
          else
            .ok (counts.map fun pu =>
              { itemId := it.id, participantId := pu.1, shareUnits := some pu.2,
                shareRatio := none, shareAmount := round2 (pu.2 * up) })
      | .equal =>
        let assigned := it.assignedTo.getD []
        if assigned = [] then
          .error ("assignedTo required for equal split item " ++ it.id)
        else if ¬ (assigned.all fun pid => pids.contains pid) then
          .error ("Unknown participant in assignedTo for item " ++ it.id)
        else
          .ok ((equalShares (up * qty) (1 / (assigned.length : ℚ)) assigned 0).map
            fun ps =>
              { itemId := it.id, participantId := ps.1, shareUnits := none,
                shareRatio := some (1 / (assigned.length : ℚ)),
                shareAmount := ps.2 })
  | _, _ => .error "Invalid item fields"

/-- The finalize loop over `items`: non-object entries (`none`) are
skipped (`continue`), the rest allocate in order. -/
def allocItems (pids : List String) : List (Option ItemInput) → Except String (List Alloc)
  | [] => .ok []
  | none :: rest => allocItems pids rest
  | some it :: rest =>
    match allocItem pids it with
    | .error e => .error e
    | .ok as =>
      match allocItems pids rest with
      | .error e => .error e
      | .ok bs => .ok (as ++ bs)

/-- One step of the `byItemMap` / `byParticipantTotals` accumulation: a
missing key starts at `0`, and each addition is `round2`-ed
(`entry.total = round2(entry.total + shareAmount)`).  First-seen key
order is preserved, as for a JS `Map`. -/
def addShare (key : String) (s : ℚ) : List (String × ℚ) → List (String × ℚ)
  | [] => [(key, round2 (0 + s))]
  | (k, t) :: rest =>
    if k = key then (k, round2 (t + s)) :: rest
    else (k, t) :: addShare key s rest

/-- Association-list read (`Map.get`). -/
def alookup (m : List (String × ℚ)) (k : String) : Option ℚ :=
  (m.find? fun p => p.1 == k).map (·.2)

/-- The accumulation loop `for (const a of allocs)` shared by
`byItemMap` and `byParticipantTotals`, keyed by `key`. -/
def foldShares (key : Alloc → String) (m : List (String × ℚ)) :
    List Alloc → List (String × ℚ)
  | [] => m
  | a :: rest => foldShares key (addShare (key a) a.shareAmount m) rest

/-- The `byItemMap` totals derived from the allocation list. -/
def byItemTotals (allocs : List Alloc) : List (String × ℚ) :=
  foldShares (·.itemId) [] allocs

/-- The `byParticipantTotals` map derived from the allocation list. -/
def byParticipantTotals (allocs : List Alloc) : List (String × ℚ) :=
  foldShares (·.participantId) [] allocs

structure ByParticipantEntry where
  uniqueId : String
  username : String
  amountOwed : ℚ
deriving DecidableEq

/-- The `totals` object plus `allocations` of the finalize response. -/
structure FinalizeResult where
  grandTotal : ℚ
  byItem : List (String × ℚ)
  byParticipant : List ByParticipantEntry
  allocations : List Alloc
deriving DecidableEq

/-- The route `POST /sessions/finalize` (pure part): top-level array checks, the
item loop, then the totals derived from the allocations only.  `byItem`
entries carry `(itemId, total)`; names/kinds are echoes of the input and
are not modelled. -/
def finalize (pList : List ParticipantInfo) (items : List (Option ItemInput)) :
    Except String FinalizeResult :=
  if pList = [] then .error "participants array required"
  else if items = [] then .error "items array required"
  else
    match allocItems (pList.map (·.uniqueId)) items with
    | .error e => .error e
    | .ok allocs =>
      let byItem := byItemTotals allocs
      let pTotals := byParticipantTotals allocs
      .ok
        { grandTotal := round2 ((byItem.map (·.2)).sum),
          byItem := byItem,
          byParticipant := pList.map fun p =>
            { uniqueId := p.uniqueId, username := p.username,
              amountOwed := round2 ((alookup pTotals p.uniqueId).getD 0) },
          allocations := allocs }

/-- Spec-side validity of one (object) item of a finalize request,
written after the validation prose of the spec (amended): an id and a
name, a resolvable `unitPrice`, a positive quantity, and a well-formed
split instruction (known participants; non-negative units summing to
the quantity for `count`; a non-empty known assignee list for `equal`).
To be compared with the code-side `allocItem`. -/
def validItemSpec (pids : List String) (it : ItemInput) : Bool :=
  match resolveUnitPrice it, it.quantity with
  | some _, some qty =>
    !(it.id = "" || it.name = "" || decide (qty ≤ 0)) &&
    (match inferSplitMode it with
     | .count =>
       (it.perPersonCount.getD []).all
         (fun pu => pids.contains pu.1 && decide (0 ≤ pu.2)) &&
       decide (((it.perPersonCount.getD []).map (·.2)).sum = qty)
     | .equal =>
       !(it.assignedTo.getD []).isEmpty &&
       (it.assignedTo.getD []).all fun pid => pids.contains pid)
  | _, _ => false

/-- Whether an `Except` computation succeeded. -/
def isOkE {ε α : Type} : Except ε α → Bool
  | .ok _ => true
  | .error _ => false

/-! ## Settlement Store (`sessionHistoryEntry` upsert and `GET /sessions/history`)

The table is a list of rows; the migration declares a unique index on
`sessionId`.  `finalizedAt` timestamps are integers. -/

/-- One `SessionHistoryEntry` row (payload = the finalize response). -/
structure StoredEntry where
  sessionId : ℤ
  creatorId : ℤ
  sessionName : Option String
  payload : FinalizeResult
  participantUniqueIds : List String
  grandTotal : ℚ
  finalizedAt : ℤ
deriving DecidableEq

/-- The call `prisma.sessionHistoryEntry.upsert({ where: { sessionId }, create,
update })`: the row with the same `sessionId` (unique) is updated in
place — the `update` block rewrites everything except `sessionId` and
`creatorId` — otherwise the row is created. -/
def upsertHistory : List StoredEntry → StoredEntry → List StoredEntry
  | [], e => [e]
  | o :: rest, e =>
    if o.sessionId = e.sessionId then { e with creatorId := o.creatorId } :: rest
    else o :: upsertHistory rest e

/-- The `where` filter of `GET /sessions/history`: rows the requester
created, `OR` — when the requester has a non-empty `uniqueId` — rows
whose `participantUniqueIds` contain it. -/
def historyMatches (requesterId : ℤ) (uid : String) (e : StoredEntry) : Bool :=
  e.creatorId == requesterId || (uid ≠ "" && e.participantUniqueIds.contains uid)

/-- The ordering `orderBy: { finalizedAt: "desc" }`. -/
def finAtGE (a b : StoredEntry) : Prop := b.finalizedAt ≤ a.finalizedAt

instance : DecidableRel finAtGE := fun a b =>
  inferInstanceAs (Decidable (b.finalizedAt ≤ a.finalizedAt))

instance : IsTotal StoredEntry finAtGE :=
  ⟨fun a b => (Int.le_total b.finalizedAt a.finalizedAt).imp id id⟩

instance : IsTrans StoredEntry finAtGE :=
  ⟨fun _ _ _ h h₂ => le_trans h₂ h⟩

/-- One element of the history response. -/
structure HistoryRespEntry where
  sessionId : ℤ
  sessionName : Option String
  finalizedAt : ℤ
  grandTotal : ℚ
  participantUniqueIds : List String
  isCreator : Bool
  payload : FinalizeResult
deriving DecidableEq

/-- The projection `entries.map(entry => ...)` of `GET /sessions/history`. -/
def mkHistoryResp (requesterId : ℤ) (e : StoredEntry) : HistoryRespEntry :=
  { sessionId := e.sessionId, sessionName := e.sessionName,
    finalizedAt := e.finalizedAt, grandTotal := e.grandTotal,
    participantUniqueIds := e.participantUniqueIds,
    isCreator := e.creatorId == requesterId, payload := e.payload }

/-- The route `GET /sessions/history` (pure part): filter, sort by `finalizedAt`
descending, then — unless `all` was requested — take `limit` rows
(default `5`; an explicit `limit` must be positive and is capped at
`50`). -/
def historyQuery (store : List StoredEntry) (requesterId : ℤ) (uid : String)
    (fetchAll : Bool) (limitParam : Option ℤ) :
    Except String (List HistoryRespEntry) :=
  let sorted := (store.filter (historyMatches requesterId uid)).insertionSort finAtGE
  if fetchAll then
    .ok (sorted.map (mkHistoryResp requesterId))
  else
    match limitParam with
    | none => .ok ((sorted.take 5).map (mkHistoryResp requesterId))
    | some p =>
      if p ≤ 0 then .error "limit must be a positive integer"
      else .ok ((sorted.take (min p 50).toNat).map (mkHistoryResp requesterId))

/-! ## Arithmetic lemmas about `round2` and whole-cent amounts -/

theorem cent_zero : Cent 0 := ⟨0, by norm_num⟩

theorem cent_add {a b : ℚ} (ha : Cent a) (hb : Cent b) : Cent (a + b) := by
  obtain ⟨m, rfl⟩ := ha
  obtain ⟨n, rfl⟩ := hb
  exact ⟨m + n, by push_cast; ring⟩

theorem cent_neg {a : ℚ} (ha : Cent a) : Cent (-a) := by
  obtain ⟨m, rfl⟩ := ha
  exact ⟨-m, by push_cast; ring⟩

theorem cent_sub {a b : ℚ} (ha : Cent a) (hb : Cent b) : Cent (a - b) := by
  have := cent_add ha (cent_neg hb)
  simpa [sub_eq_add_neg] using this

theorem round2_cent (q : ℚ) : Cent (round2 q) := ⟨_, rfl⟩

/-- Rounding with `round2` is the identity on whole-cent amounts. -/
theorem round2_eq_self {a : ℚ} (ha : Cent a) : round2 a = a := by
  obtain ⟨n, rfl⟩ := ha
  have h1 : (n : ℚ) / 100 * 100 + 1/2 = (n : ℚ) + 1/2 := by
    field_simp
  rw [round2, h1]
  have hfloor : ⌊(n : ℚ) + 1/2⌋ = n := by
    rw [add_comm, Int.floor_add_int]
    norm_num
  rw [hfloor]

/-- Adding a whole-cent amount commutes with `round2`. -/
theorem round2_add_cent (q : ℚ) {a : ℚ} (ha : Cent a) :
    round2 (q + a) = round2 q + a := by
  obtain ⟨n, rfl⟩ := ha
  have h1 : (q + (n : ℚ) / 100) * 100 + 1/2 = (q * 100 + 1/2) + (n : ℚ) := by
    field_simp
    ring
  rw [round2, h1, Int.floor_add_int, round2]
  push_cast
  ring

theorem round2_sub_cent (q : ℚ) {a : ℚ} (ha : Cent a) :
    round2 (q - a) = round2 q - a := by
  have := round2_add_cent q (cent_neg ha)
  simpa [sub_eq_add_neg] using this

theorem cent_list_sum {l : List ℚ} (h : ∀ x ∈ l, Cent x) : Cent l.sum := by
  induction l with
  | nil => simpa using cent_zero
  | cons x xs ih =>
      simp only [List.sum_cons]
      exact cent_add (h x (by simp)) (ih fun y hy => h y (by simp [hy]))

/-! ## Lemmas about the equal-split share list -/

theorem equalShares_map_fst (T r : ℚ) :
    ∀ (xs : List String) (a : ℚ), (equalShares T r xs a).map Prod.fst = xs := by
  intro xs
  induction xs with
  | nil => intro a; simp [equalShares]
  | cons x xs ih =>
      intro a
      cases xs with
      | nil => simp [equalShares]
      | cons y ys => simp [equalShares, ih]

theorem equalShares_length (T r : ℚ) (xs : List String) (a : ℚ) :
    (equalShares T r xs a).length = xs.length := by
  have := equalShares_map_fst T r xs a
  calc (equalShares T r xs a).length
      = ((equalShares T r xs a).map Prod.fst).length := by simp
    _ = xs.length := by rw [this]

theorem equalShares_cent (T r : ℚ) :
    ∀ (xs : List String) (a : ℚ) (p : String × ℚ),
      p ∈ equalShares T r xs a → Cent p.2 := by
  intro xs
  induction xs with
  | nil => intro a p hp; simp [equalShares] at hp
  | cons x xs ih =>
      intro a p hp
      cases xs with
      | nil =>
          simp [equalShares] at hp
          rw [hp]
          exact round2_cent _
      | cons y ys =>
          simp only [equalShares, List.mem_cons] at hp
          rcases hp with hp | hp
          · rw [hp]
            exact round2_cent _
          · exact ih _ p hp

/-- Sum of the equal-split shares: everything allocates, drift lands on
the last assignee. -/
theorem equalShares_sum (T r : ℚ) :
    ∀ (xs : List String) (a : ℚ), xs ≠ [] → Cent a →
      ((equalShares T r xs a).map Prod.snd).sum = round2 T - a := by
  intro xs
  induction xs with
  | nil => intro a h; exact absurd rfl h
  | cons x xs ih =>
      intro a _ ha
      cases xs with
      | nil =>
          simp only [equalShares, List.map_cons, List.map_nil, List.sum_cons,
            List.sum_nil, add_zero]
          exact round2_sub_cent T ha
      | cons y ys =>
          have hs : Cent (round2 (T * r)) := round2_cent _
          have hacc : Cent (round2 (a + round2 (T * r))) := round2_cent _
          have hrec := ih (round2 (a + round2 (T * r))) (by simp) hacc
          simp only [equalShares, List.map_cons, List.sum_cons]
          rw [hrec, round2_eq_self (cent_add ha hs)]
          ring

/-- All equal-split shares except the last are `round2 (T * r)`. -/
theorem equalShares_dropLast (T r : ℚ) :
    ∀ (xs : List String) (a : ℚ),
      ((equalShares T r xs a).map Prod.snd).dropLast
        = List.replicate (xs.length - 1) (round2 (T * r)) := by
  intro xs
  induction xs with
  | nil => intro a; simp [equalShares]
  | cons x xs ih =>
      intro a
      cases xs with
      | nil => simp [equalShares]
      | cons y ys =>
          have hne : equalShares T r (y :: ys) (round2 (a + round2 (T * r))) ≠ [] := by
            intro h
            have := equalShares_length T r (y :: ys) (round2 (a + round2 (T * r)))
            rw [h] at this
            simp at this
          simp only [equalShares, List.map_cons]
          rw [List.dropLast_cons_of_ne_nil (by simpa using hne), ih]
          simp [List.replicate_succ]

/-! ## Lemmas about the count-split validation loop -/

theorem countSum_ok_sum (pids : List String) :
    ∀ (l : List (String × ℚ)) (s : ℚ), countSum pids l = .ok s →
      s = (l.map (·.2)).sum := by
  intro l
  induction l with
  | nil =>
      intro s h
      simp [countSum] at h
      simp [← h]
  | cons pu rest ih =>
      intro s h
      obtain ⟨pid, u⟩ := pu
      simp only [countSum] at h
      split at h
      · exact absurd h (by simp)
      · split at h
        · exact absurd h (by simp)
        · cases hc : countSum pids rest with
          | error e => rw [hc] at h; exact absurd h (by simp)
          | ok s₂ =>
              rw [hc] at h
              simp only [Except.ok.injEq] at h
              rw [← h, ih s₂ hc]
              simp

theorem countSum_ok_mem (pids : List String) :
    ∀ (l : List (String × ℚ)) (s : ℚ), countSum pids l = .ok s →
      ∀ pu ∈ l, pids.contains pu.1 = true := by
  intro l
  induction l with
  | nil => intro s _ pu hpu; simp at hpu
  | cons hd rest ih =>
      intro s h pu hpu
      obtain ⟨pid, u⟩ := hd
      simp only [countSum] at h
      split at h
      · exact absurd h (by simp)
      · next hmem =>
          split at h
          · exact absurd h (by simp)
          · cases hc : countSum pids rest with
            | error e => rw [hc] at h; exact absurd h (by simp)
            | ok s₂ =>
                rcases List.mem_cons.mp hpu with rfl | hmem₂
                · simpa using hmem
                · exact ih s₂ hc pu hmem₂

theorem countSum_ok_of_valid (pids : List String) :
    ∀ l : List (String × ℚ),
      (∀ pu ∈ l, pids.contains pu.1 = true ∧ 0 ≤ pu.2) →
      countSum pids l = .ok ((l.map (·.2)).sum) := by
  intro l
  induction l with
  | nil => intro _; simp [countSum]
  | cons hd rest ih =>
      intro hv
      obtain ⟨pid, u⟩ := hd
      have h₁ := hv (pid, u) (by simp)
      simp only [countSum, h₁.1, ih fun pu hpu => hv pu (by simp [hpu])]
      rw [if_neg (by simp), if_neg (by simp [not_lt, h₁.2])]
      simp

/-! ## Inversion of the per-item allocator -/

/-- What a successful `allocItem` run tells us, in both split modes. -/
theorem allocItem_ok_inv {pids : List String} {it : ItemInput} {as : List Alloc}
    (h : allocItem pids it = .ok as) :
    ∃ up qty, resolveUnitPrice it = some up ∧ it.quantity = some qty ∧
      it.id ≠ "" ∧ it.name ≠ "" ∧ 0 < qty ∧
      ((inferSplitMode it = .count ∧
         countSum pids (it.perPersonCount.getD []) = .ok qty ∧
         as = (it.perPersonCount.getD []).map (fun pu =>
           { itemId := it.id, participantId := pu.1, shareUnits := some pu.2,
             shareRatio := none, shareAmount := round2 (pu.2 * up) })) ∨
       (inferSplitMode it = .equal ∧
         it.assignedTo.getD [] ≠ [] ∧
         ((it.assignedTo.getD []).all fun pid => pids.contains pid) = true ∧
         as = (equalShares (up * qty) (1 / ((it.assignedTo.getD []).length : ℚ))
                 (it.assignedTo.getD []) 0).map
           (fun ps =>
             { itemId := it.id, participantId := ps.1, shareUnits := none,
               shareRatio := some (1 / ((it.assignedTo.getD []).length : ℚ)),
               shareAmount := ps.2 }))) := by
  cases hup : resolveUnitPrice it with
  | none => simp [allocItem, hup] at h
  | some up =>
    cases hq : it.quantity with
    | none => simp [allocItem, hup, hq] at h
    | some qty =>
      simp only [allocItem, hup, hq] at h
      refine ⟨up, qty, rfl, rfl, ?_⟩
      split at h
      · exact absurd h (by simp)
      · next hvalid =>
        simp only [not_or, not_le] at hvalid
        obtain ⟨hid, hname, hqty⟩ := hvalid
        refine ⟨hid, hname, hqty, ?_⟩
        cases hmode : inferSplitMode it with
        | count =>
            simp only [hmode] at h
            left
            cases hc : countSum pids (it.perPersonCount.getD []) with
            | error e => simp [hc] at h
            | ok s =>
                simp only [hc] at h
                split at h
                · exact absurd h (by simp)
                · next hs =>
                    have hs₂ : s = qty := not_ne_iff.mp hs
                    subst hs₂
                    simp only [Except.ok.injEq] at h
                    exact ⟨rfl, rfl, h.symm⟩
        | equal =>
            simp only [hmode] at h
            right
            split at h
            · exact absurd h (by simp)
            · next hne =>
              split at h
              · exact absurd h (by simp)
              · next hall =>
                  simp only [Except.ok.injEq] at h
                  exact ⟨rfl, hne, not_not.mp hall, h.symm⟩

/-- Conversely, a spec-valid item allocates successfully. -/
theorem allocItem_ok_of_valid {pids : List String} {it : ItemInput}
    (h : validItemSpec pids it = true) :
    ∃ as, allocItem pids it = .ok as := by
  rw [validItemSpec] at h
  cases hup : resolveUnitPrice it with
  | none => rw [hup] at h; exact absurd h (by simp)
  | some up =>
    cases hq : it.quantity with
    | none => rw [hup, hq] at h; exact absurd h (by simp)
    | some qty =>
      rw [hup, hq] at h
      simp only [Bool.and_eq_true, Bool.not_eq_true', Bool.or_eq_false_iff,
        decide_eq_false_iff_not] at h
      obtain ⟨⟨⟨hid, hname⟩, hqty⟩, hbranch⟩ := h
      simp only [allocItem, hup, hq]
      rw [if_neg (by simp [hid, hname, hqty])]
      cases hmode : inferSplitMode it with
      | count =>
          rw [hmode] at hbranch
          simp only [Bool.and_eq_true, List.all_eq_true, decide_eq_true_eq] at hbranch
          obtain ⟨hall, hsum⟩ := hbranch
          have hc := countSum_ok_of_valid pids (it.perPersonCount.getD [])
            (fun pu hpu => by
              have := hall pu hpu
              simp only [Bool.and_eq_true, decide_eq_true_eq] at this
              exact this)
          rw [hc, hsum]
          simp
      | equal =>
          rw [hmode] at hbranch
          simp only [Bool.and_eq_true, Bool.not_eq_true', List.isEmpty_eq_false] at hbranch
          obtain ⟨hne, hall⟩ := hbranch
          rw [if_neg (by simpa using hne), if_neg (not_not.mpr hall)]
          simp

/-- Every allocation row a successful `allocItem` emits carries a
whole-cent `shareAmount`. -/
theorem allocItem_ok_cent {pids : List String} {it : ItemInput} {as : List Alloc}
    (h : allocItem pids it = .ok as) : ∀ a ∈ as, Cent a.shareAmount := by
  obtain ⟨up, qty, _, _, _, _, _, hbr⟩ := allocItem_ok_inv h
  rcases hbr with ⟨_, _, rfl⟩ | ⟨_, _, _, rfl⟩
  · intro a ha
    obtain ⟨pu, _, rfl⟩ := List.mem_map.mp ha
    exact round2_cent _
  · intro a ha
    obtain ⟨ps, hps, rfl⟩ := List.mem_map.mp ha
    exact equalShares_cent _ _ _ _ ps hps

/-- Every allocation row a successful `allocItem` emits references a
roster participant. -/
theorem allocItem_ok_pid {pids : List String} {it : ItemInput} {as : List Alloc}
    (h : allocItem pids it = .ok as) :
    ∀ a ∈ as, pids.contains a.participantId = true := by
  obtain ⟨up, qty, _, _, _, _, _, hbr⟩ := allocItem_ok_inv h
  rcases hbr with ⟨_, hc, rfl⟩ | ⟨_, _, hall, rfl⟩
  · intro a ha
    obtain ⟨pu, hpu, rfl⟩ := List.mem_map.mp ha
    exact countSum_ok_mem _ _ _ hc pu hpu
  · intro a ha
    obtain ⟨ps, hps, rfl⟩ := List.mem_map.mp ha
    have h₁ : ps.1 ∈ (equalShares _ _ (it.assignedTo.getD []) 0).map Prod.fst :=
      List.mem_map_of_mem Prod.fst hps
    rw [equalShares_map_fst] at h₁
    exact List.all_eq_true.mp hall ps.1 h₁

/-- Inversion of the item loop: a successful run means each non-skipped
item allocated successfully, and the output rows are all whole-cent,
roster-participant rows. -/
theorem allocItems_ok_inv (pids : List String) :
    ∀ (items : List (Option ItemInput)) (allocs : List Alloc),
      allocItems pids items = .ok allocs →
      (∀ a ∈ allocs, Cent a.shareAmount ∧ pids.contains a.participantId = true) ∧
      (∀ it : ItemInput, some it ∈ items → ∃ as, allocItem pids it = .ok as) := by
  intro items
  induction items with
  | nil =>
      intro allocs h
      simp only [allocItems, Except.ok.injEq] at h
      subst h
      exact ⟨by simp, by simp⟩
  | cons hd rest ih =>
      intro allocs h
      cases hd with
      | none =>
          simp only [allocItems] at h
          obtain ⟨h₁, h₂⟩ := ih allocs h
          exact ⟨h₁, fun it hit => h₂ it (by simpa using hit)⟩
      | some it₀ =>
          simp only [allocItems] at h
          cases ha : allocItem pids it₀ with
          | error e => simp [ha] at h
          | ok as₀ =>
              simp only [ha] at h
              cases hb : allocItems pids rest with
              | error e => simp [hb] at h
              | ok bs =>
                  simp only [hb, Except.ok.injEq] at h
                  subst h
                  obtain ⟨h₁, h₂⟩ := ih bs hb
                  refine ⟨?_, ?_⟩
                  · intro a hmem
                    rcases List.mem_append.mp hmem with hmem | hmem
                    · exact ⟨allocItem_ok_cent ha a hmem, allocItem_ok_pid ha a hmem⟩
                    · exact h₁ a hmem
                  · intro it hit
                    rcases List.mem_cons.mp hit with heq | hmem
                    · obtain rfl : it = it₀ := by simpa using heq
                      exact ⟨as₀, ha⟩
                    · exact h₂ it hmem

/-- Conversely, the item loop succeeds when every non-skipped item is
spec-valid. -/
theorem allocItems_ok_of_valid (pids : List String) :
    ∀ items : List (Option ItemInput),
      (∀ it : ItemInput, some it ∈ items → validItemSpec pids it = true) →
      ∃ allocs, allocItems pids items = .ok allocs := by
  intro items
  induction items with
  | nil => intro _; exact ⟨[], rfl⟩
  | cons hd rest ih =>
      intro hv
      obtain ⟨bs, hbs⟩ := ih fun it hit => hv it (by simp [hit])
      cases hd with
      | none => exact ⟨bs, by simpa [allocItems] using hbs⟩
      | some it₀ =>
          obtain ⟨as₀, has⟩ := allocItem_ok_of_valid (hv it₀ (by simp))
          exact ⟨as₀ ++ bs, by simp [allocItems, has, hbs]⟩

/-! ## Lemmas about the totals accumulation -/

theorem addShare_keys (k : String) (s : ℚ) :
    ∀ m : List (String × ℚ),
      (addShare k s m).map Prod.fst =
        if k ∈ m.map Prod.fst then m.map Prod.fst else m.map Prod.fst ++ [k] := by
  intro m
  induction m with
  | nil => simp [addShare]
  | cons hd rest ih =>
      obtain ⟨k₁, t⟩ := hd
      by_cases hk : k₁ = k
      · subst hk
        simp [addShare]
      · simp only [addShare, if_neg hk, List.map_cons]
        rw [ih]
        have hiff : (k ∈ k₁ :: rest.map Prod.fst) ↔ (k ∈ rest.map Prod.fst) := by
          constructor
          · intro h
            rcases List.mem_cons.mp h with h | h
            · exact absurd h.symm hk
            · exact h
          · exact fun h => List.mem_cons_of_mem _ h
        by_cases hmem : k ∈ rest.map Prod.fst
        · simp [hmem, hiff]
        · simp only [if_neg hmem, List.map_cons]
          rw [if_neg (by rw [hiff]; exact hmem)]
          simp

theorem addShare_keys_nodup (k : String) (s : ℚ) (m : List (String × ℚ))
    (h : (m.map Prod.fst).Nodup) : ((addShare k s m).map Prod.fst).Nodup := by
  rw [addShare_keys]
  by_cases hmem : k ∈ m.map Prod.fst
  · simpa [hmem] using h
  · simp only [if_neg hmem]
    rw [List.nodup_append]
    exact ⟨h, List.nodup_singleton k, by simpa using fun h₂ => hmem h₂⟩

theorem addShare_values_cent (k : String) {s : ℚ} (_hs : Cent s) :
    ∀ m : List (String × ℚ), (∀ v ∈ m.map Prod.snd, Cent v) →
      ∀ v ∈ (addShare k s m).map Prod.snd, Cent v := by
  intro m
  induction m with
  | nil =>
      intro _ v hv
      simp only [addShare, List.map_cons, List.map_nil] at hv
      rcases List.mem_cons.mp hv with rfl | hv
      · exact round2_cent _
      · simp at hv
  | cons hd rest ih =>
      intro hm v hv
      obtain ⟨k₁, t⟩ := hd
      by_cases hk : k₁ = k
      · subst hk
        simp only [addShare, if_pos rfl, List.map_cons] at hv
        rcases List.mem_cons.mp hv with rfl | hv
        · exact round2_cent _
        · exact hm v (by simp [hv])
      · simp only [addShare, if_neg hk, List.map_cons] at hv
        rcases List.mem_cons.mp hv with rfl | hv
        · exact hm v (by simp)
        · exact ih (fun w hw => hm w (by simp [hw])) v hv

theorem addShare_sum (k : String) {s : ℚ} (hs : Cent s) :
    ∀ m : List (String × ℚ), (∀ v ∈ m.map Prod.snd, Cent v) →
      ((addShare k s m).map Prod.snd).sum = (m.map Prod.snd).sum + s := by
  intro m
  induction m with
  | nil =>
      intro _
      simp only [addShare, List.map_cons, List.map_nil, List.sum_cons,
        List.sum_nil, add_zero, zero_add]
      exact round2_eq_self hs
  | cons hd rest ih =>
      intro hm
      obtain ⟨k₁, t⟩ := hd
      have ht : Cent t := hm t (by simp)
      by_cases hk : k₁ = k
      · subst hk
        have hstep : addShare k₁ s ((k₁, t) :: rest) = (k₁, round2 (t + s)) :: rest := by
          simp [addShare]
        rw [hstep]
        simp only [List.map_cons, List.sum_cons]
        rw [round2_eq_self (cent_add ht hs)]
        ring
      · simp only [addShare, if_neg hk, List.map_cons, List.sum_cons]
        rw [ih fun w hw => hm w (by simp [hw])]
        ring

/-- The invariant of the `byItemMap`/`byParticipantTotals` fold:
whole-cent values, no duplicate keys, keys come from the allocations,
and the values sum to the accumulated shares. -/
theorem foldShares_inv (key : Alloc → String) :
    ∀ (allocs : List Alloc) (m : List (String × ℚ)),
      (∀ v ∈ m.map Prod.snd, Cent v) →
      (m.map Prod.fst).Nodup →
      (∀ a ∈ allocs, Cent a.shareAmount) →
      (∀ v ∈ (foldShares key m allocs).map Prod.snd, Cent v) ∧
      ((foldShares key m allocs).map Prod.fst).Nodup ∧
      (∀ x ∈ (foldShares key m allocs).map Prod.fst,
        x ∈ m.map Prod.fst ∨ x ∈ allocs.map key) ∧
      ((foldShares key m allocs).map Prod.snd).sum
        = (m.map Prod.snd).sum + (allocs.map (·.shareAmount)).sum := by
  intro allocs
  induction allocs with
  | nil =>
      intro m hv hk _
      exact ⟨hv, hk, fun x hx => Or.inl hx, by simp [foldShares]⟩
  | cons a rest ih =>
      intro m hv hk hc
      have hca : Cent a.shareAmount := hc a (by simp)
      have hv₂ := addShare_values_cent (key a) hca m hv
      have hk₂ := addShare_keys_nodup (key a) a.shareAmount m hk
      obtain ⟨r₁, r₂, r₃, r₄⟩ :=
        ih (addShare (key a) a.shareAmount m) hv₂ hk₂
          (fun b hb => hc b (by simp [hb]))
      refine ⟨r₁, r₂, ?_, ?_⟩
      · intro x hx
        rcases r₃ x hx with hx₂ | hx₂
        · rw [addShare_keys] at hx₂
          by_cases hmem : key a ∈ m.map Prod.fst
          · rw [if_pos hmem] at hx₂
            exact Or.inl hx₂
          · rw [if_neg hmem] at hx₂
            rcases List.mem_append.mp hx₂ with hx₃ | hx₃
            · exact Or.inl hx₃
            · right
              simp only [List.mem_singleton] at hx₃
              simp [hx₃]
        · exact Or.inr (by simp [hx₂])
      · rw [foldShares, r₄, addShare_sum (key a) hca m hv]
        simp only [List.map_cons, List.sum_cons]
        ring

/-- Summing association-list values through pointwise lookups over
a superset of its keys. -/
theorem sum_map_ite (k : String) (v : ℚ) (f : String → ℚ) :
    ∀ L : List String, L.Nodup → k ∈ L →
      (L.map fun x => if x = k then v else f x).sum = (L.map f).sum - f k + v := by
  intro L
  induction L with
  | nil => intro _ h; simp at h
  | cons l rest ih =>
      intro hnd hmem
      have hnd₂ := List.nodup_cons.mp hnd
      by_cases hl : l = k
      · subst hl
        have hrw : rest.map (fun x => if x = l then v else f x) = rest.map f :=
          List.map_congr_left fun x hx => by
            have hxl : x ≠ l := by
              intro hc
              exact hnd₂.1 (hc ▸ hx)
            rw [if_neg hxl]
        simp only [List.map_cons, List.sum_cons, hrw, eq_self_iff_true, if_true]
        ring
      · have hmem₂ : k ∈ rest := by
          rcases List.mem_cons.mp hmem with h | h
          · exact absurd h.symm hl
          · exact h
        simp only [List.map_cons, List.sum_cons, if_neg hl]
        rw [ih hnd₂.2 hmem₂]
        ring

theorem alookup_eq_none {m : List (String × ℚ)} {x : String}
    (h : x ∉ m.map Prod.fst) : alookup m x = none := by
  rw [alookup]
  rw [List.find?_eq_none.mpr]
  · rfl
  · intro p hp
    simp only [beq_iff_eq]
    intro hc
    exact h (hc ▸ List.mem_map_of_mem Prod.fst hp)

theorem alookup_cons (k : String) (v : ℚ) (m : List (String × ℚ)) (x : String) :
    alookup ((k, v) :: m) x = if x = k then some v else alookup m x := by
  by_cases h : k = x
  · subst h
    simp [alookup, List.find?_cons]
  · simp only [alookup, List.find?_cons]
    have hb : ((k, v).1 == x) = false := by simpa using h
    rw [hb]
    simp only [cond_false]
    rw [if_neg fun hc => h hc.symm]

/-- Summing lookups with default `0` over a duplicate-free list `L`
covering the keys recovers the value sum of the association list. -/
theorem alookup_sum :
    ∀ (m : List (String × ℚ)) (L : List String), L.Nodup →
      (m.map Prod.fst).Nodup →
      (∀ x ∈ m.map Prod.fst, x ∈ L) →
      (L.map fun x => (alookup m x).getD 0).sum = (m.map Prod.snd).sum := by
  intro m
  induction m with
  | nil =>
      intro L _ _ _
      have : (L.map fun x => ((alookup ([] : List (String × ℚ)) x).getD 0)) =
          L.map fun _ => (0 : ℚ) :=
        List.map_congr_left fun x _ => by simp [alookup]
      rw [this]
      simp
  | cons hd rest ih =>
      intro L hL hkeys hcov
      obtain ⟨k, v⟩ := hd
      rw [List.map_cons] at hkeys
      have hknd := List.nodup_cons.mp hkeys
      have hkL : k ∈ L := hcov k (by simp)
      have hrw : (L.map fun x => (alookup ((k, v) :: rest) x).getD 0) =
          L.map fun x => if x = k then v else (alookup rest x).getD 0 :=
        List.map_congr_left fun x _ => by
          rw [alookup_cons]
          by_cases hx : x = k
          · simp [hx]
          · simp [hx]
      rw [hrw, sum_map_ite k v _ L hL hkL]
      rw [alookup_eq_none hknd.1]
      rw [ih L hL hknd.2 fun x hx => hcov x (by simp [hx])]
      simp only [List.map_cons, List.sum_cons, Option.getD_none]
      ring

/-- The last element of a non-empty list is its sum minus the sum of
the others. -/
theorem getLastD_eq_sum_sub_dropLast (l : List ℚ) (h : l ≠ []) :
    l.getLastD 0 = l.sum - l.dropLast.sum := by
  have hsplit := List.dropLast_append_getLast h
  have hsum : l.dropLast.sum + l.getLast h = l.sum := by
    conv_rhs => rw [← hsplit]
    simp
  have hD : l.getLastD 0 = l.getLast h := by
    cases l with
    | nil => exact absurd rfl h
    | cons x xs => simp [List.getLastD_eq_getLast?, List.getLast?_eq_getLast _ h]
  rw [hD, ← hsum]
  ring

/-- Inversion of a successful finalize call. -/
theorem finalize_ok_inv {pList : List ParticipantInfo}
    {items : List (Option ItemInput)} {res : FinalizeResult}
    (h : finalize pList items = .ok res) :
    pList ≠ [] ∧ items ≠ [] ∧
    ∃ allocs, allocItems (pList.map (·.uniqueId)) items = .ok allocs ∧
      res.allocations = allocs ∧
      res.byItem = byItemTotals allocs ∧
      res.grandTotal = round2 ((byItemTotals allocs |>.map (·.2)).sum) ∧
      res.byParticipant = pList.map (fun p =>
        { uniqueId := p.uniqueId, username := p.username,
          amountOwed :=
            round2 ((alookup (byParticipantTotals allocs) p.uniqueId).getD 0) }) := by
  rw [finalize] at h
  split at h
  · exact absurd h (by simp)
  · next hp =>
    split at h
    · exact absurd h (by simp)
    · next hi =>
      refine ⟨hp, hi, ?_⟩
      cases ha : allocItems (pList.map (·.uniqueId)) items with
      | error e => simp [ha] at h
      | ok allocs =>
          simp only [ha, Except.ok.injEq] at h
          exact ⟨allocs, rfl, by rw [← h], by rw [← h], by rw [← h], by rw [← h]⟩

/-! ## Claims -/

/-- C1: for every item finalized with the equal split policy across N
assignees (N ≥ 1, all assignee ids present in the roster), each
assignee except the last receives `round2 (unitPrice × quantity × (1/N))`,
the last assignee receives the item total minus the sum already
allocated, and the N `shareAmount`s sum to `round2 (unitPrice × quantity)`
exactly. -/
theorem equal_split_shares (pids : List String) (it : ItemInput) (up qty : ℚ)
    (assigned : List String)
    (hup : resolveUnitPrice it = some up) (hq : it.quantity = some qty)
    (hid : it.id ≠ "") (hname : it.name ≠ "") (hqty : 0 < qty)
    (hmode : inferSplitMode it = .equal)
    (hassigned : it.assignedTo = some assigned)
    (hne : assigned ≠ [])
    (hmem : ∀ p ∈ assigned, pids.contains p = true) :
    ∃ allocs, allocItem pids it = .ok allocs ∧
      allocs.map Alloc.participantId = assigned ∧
      (allocs.map Alloc.shareAmount).dropLast
        = List.replicate (assigned.length - 1)
            (round2 (up * qty * (1 / (assigned.length : ℚ)))) ∧
      (allocs.map Alloc.shareAmount).getLastD 0
        = round2 (up * qty) - ((allocs.map Alloc.shareAmount).dropLast).sum ∧
      (allocs.map Alloc.shareAmount).sum = round2 (up * qty) := by
  have hall : (assigned.all fun pid => pids.contains pid) = true :=
    List.all_eq_true.mpr fun p hp => by simpa using hmem p hp
  have hrun : allocItem pids it =
      .ok ((equalShares (up * qty) (1 / (assigned.length : ℚ)) assigned 0).map
        fun ps =>
          { itemId := it.id, participantId := ps.1, shareUnits := none,
            shareRatio := some (1 / (assigned.length : ℚ)),
            shareAmount := ps.2 }) := by
    simp only [allocItem, hup, hq, hmode, hassigned, Option.getD_some]
    rw [if_neg (by simp [hid, hname, not_le.mpr hqty]), if_neg hne,
      if_neg (not_not.mpr hall)]
  refine ⟨_, hrun, ?_, ?_, ?_, ?_⟩
  · rw [List.map_map]
    exact equalShares_map_fst _ _ assigned 0
  all_goals rw [List.map_map]
  all_goals have hshares :
      ((equalShares (up * qty) (1 / (assigned.length : ℚ)) assigned 0).map
        (Alloc.shareAmount ∘ fun ps =>
          { itemId := it.id, participantId := ps.1, shareUnits := none,
            shareRatio := some (1 / (assigned.length : ℚ)),
            shareAmount := ps.2 })) =
      (equalShares (up * qty) (1 / (assigned.length : ℚ)) assigned 0).map Prod.snd := rfl
  all_goals rw [hshares]
  · exact equalShares_dropLast _ _ assigned 0
  · have hlen : (List.map Prod.snd
        (equalShares (up * qty) (1 / (assigned.length : ℚ)) assigned 0)).length
        = assigned.length := by
      rw [List.length_map, equalShares_length]
    have hnonempty : List.map Prod.snd
        (equalShares (up * qty) (1 / (assigned.length : ℚ)) assigned 0) ≠ [] := by
      intro hnil
      rw [hnil] at hlen
      exact hne (List.length_eq_zero.mp hlen.symm)
    rw [getLastD_eq_sum_sub_dropLast _ hnonempty,
      equalShares_sum _ _ assigned 0 hne cent_zero, sub_zero]
  · rw [equalShares_sum _ _ assigned 0 hne cent_zero]
    ring

/-- Witness for C1 at Scenario B of the spec: unit price 1.00, quantity
3, split equally between A and B. -/
theorem equal_split_shares_witness :
    ∃ allocs, allocItem ["A", "B"]
        { id := "i1", name := "Cola", price := some 1, unitPrice := none,
          totalPrice := none, quantity := some 3, kind := none,
          splitMode := some .equal, perPersonCount := none,
          assignedTo := some ["A", "B"] } = .ok allocs ∧
      allocs.map Alloc.participantId = ["A", "B"] ∧
      (allocs.map Alloc.shareAmount).dropLast
        = List.replicate ((["A", "B"] : List String).length - 1)
            (round2 ((1 : ℚ) * 3 * (1 / ((["A", "B"] : List String).length : ℚ)))) ∧
      (allocs.map Alloc.shareAmount).getLastD 0
        = round2 ((1 : ℚ) * 3) - ((allocs.map Alloc.shareAmount).dropLast).sum ∧
      (allocs.map Alloc.shareAmount).sum = round2 ((1 : ℚ) * 3) :=
  equal_split_shares ["A", "B"] _ 1 3 ["A", "B"] rfl rfl (by decide) (by decide)
    (by decide) rfl rfl (by decide) (by decide)

/-- C2 counterexample: a successful finalize call whose `count`-split
item has unit price 0.333 and units 1/1/1 allocates 0.33+0.33+0.33 =
0.99, while the item total is `round2 (0.333 × 3) = 1.00`. -/
theorem count_subcent_sum_counterexample :
    (finalize
        [{ uniqueId := "A", username := "A" }, { uniqueId := "B", username := "B" },
         { uniqueId := "C", username := "C" }]
        [some { id := "i1", name := "x", price := some (333/1000), unitPrice := none,
                totalPrice := none, quantity := some 3, kind := none,
                splitMode := some .count,
                perPersonCount := some [("A", 1), ("B", 1), ("C", 1)],
                assignedTo := none }]).map
      (fun res => (res.allocations.map Alloc.shareAmount).sum) = .ok (99/100 : ℚ) ∧
    round2 ((333/1000 : ℚ) * 3) = 1 ∧ (99/100 : ℚ) ≠ 1 :=
  ⟨by with_unfolding_all decide, by with_unfolding_all decide,
   by with_unfolding_all decide⟩

/-- C2 (amended): for every item allocated by a finalize call, the sum
of the `shareAmount` values over its allocations equals the item total
`round2 (unitPrice × quantity)` — unconditionally under the `equal`
policy, and under the `count` policy provided each raw share
`units × unitPrice` is itself a whole-cent amount (in particular for
integral units at a whole-cent unit price). -/
theorem item_alloc_sum_eq_total (pids : List String) (it : ItemInput)
    (as : List Alloc) (up qty : ℚ)
    (hup : resolveUnitPrice it = some up) (hq : it.quantity = some qty)
    (h : allocItem pids it = .ok as)
    (hexact : inferSplitMode it = .equal ∨
      ∀ pu ∈ it.perPersonCount.getD [], round2 (pu.2 * up) = pu.2 * up) :
    (as.map Alloc.shareAmount).sum = round2 (up * qty) := by
  obtain ⟨up₂, qty₂, hup₂, hq₂, _, _, _, hbr⟩ := allocItem_ok_inv h
  rw [hup] at hup₂
  rw [hq] at hq₂
  obtain rfl : up = up₂ := by injection hup₂
  obtain rfl : qty = qty₂ := by injection hq₂
  rcases hbr with ⟨hmode, hc, rfl⟩ | ⟨hmode, hne, _, rfl⟩
  · rcases hexact with hmode₂ | hexact
    · rw [hmode] at hmode₂
      exact absurd hmode₂ (by simp)
    · rw [List.map_map]
      have hrw : ((it.perPersonCount.getD []).map
          (Alloc.shareAmount ∘ fun pu =>
            { itemId := it.id, participantId := pu.1, shareUnits := some pu.2,
              shareRatio := none, shareAmount := round2 (pu.2 * up) }))
          = (it.perPersonCount.getD []).map fun pu => pu.2 * up :=
        List.map_congr_left fun pu hpu => hexact pu hpu
      rw [hrw]
      have hsum := countSum_ok_sum pids _ qty hc
      have hmul : ((it.perPersonCount.getD []).map fun pu => pu.2 * up).sum
          = ((it.perPersonCount.getD []).map (·.2)).sum * up := by
        induction it.perPersonCount.getD [] with
        | nil => simp
        | cons hd rest ih =>
            simp only [List.map_cons, List.sum_cons, ih]
            ring
      rw [hmul, ← hsum]
      have hcent : Cent (qty * up) := by
        rw [hsum, ← hmul]
        refine cent_list_sum fun x hx => ?_
        obtain ⟨pu, hpu, rfl⟩ := List.mem_map.mp hx
        rw [← hexact pu hpu]
        exact round2_cent _
      rw [show up * qty = qty * up from mul_comm up qty,
        round2_eq_self hcent]
  · rw [List.map_map]
    have hrw : ((equalShares (up * qty) (1 / ((it.assignedTo.getD []).length : ℚ))
          (it.assignedTo.getD []) 0).map
        (Alloc.shareAmount ∘ fun ps =>
          { itemId := it.id, participantId := ps.1, shareUnits := none,
            shareRatio := some (1 / ((it.assignedTo.getD []).length : ℚ)),
            shareAmount := ps.2 }))
        = (equalShares (up * qty) (1 / ((it.assignedTo.getD []).length : ℚ))
            (it.assignedTo.getD []) 0).map Prod.snd := rfl
    rw [hrw, equalShares_sum _ _ _ 0 hne cent_zero, sub_zero]

/-- Witness for C2 (amended) at Scenario C of the spec: unit price 1.00,
quantity 3, count split A:2, B:1. -/
theorem item_alloc_sum_eq_total_witness :
    (([{ itemId := "i1", participantId := "A", shareUnits := some 2,
         shareRatio := none, shareAmount := 2 },
       { itemId := "i1", participantId := "B", shareUnits := some 1,
         shareRatio := none, shareAmount := 1 }] : List Alloc).map
      Alloc.shareAmount).sum = round2 ((1 : ℚ) * 3) :=
  item_alloc_sum_eq_total ["A", "B"]
    { id := "i1", name := "x", price := some 1, unitPrice := none,
      totalPrice := none, quantity := some 3, kind := none,
      splitMode := some .count,
      perPersonCount := some [("A", 2), ("B", 1)], assignedTo := none }
    _ 1 3 rfl rfl (by with_unfolding_all decide)
    (Or.inr (by with_unfolding_all decide))

theorem alookup_mem_values {m : List (String × ℚ)} {k : String} {v : ℚ}
    (h : alookup m k = some v) : v ∈ m.map Prod.snd := by
  rw [alookup] at h
  cases hf : m.find? fun p => p.1 == k with
  | none => rw [hf] at h; exact absurd h (by simp)
  | some p =>
      rw [hf] at h
      simp only [Option.map_some', Option.some.injEq] at h
      rw [← h]
      exact List.mem_map_of_mem Prod.snd (List.mem_of_find?_eq_some hf)

/-- C3 counterexample: with a duplicated roster entry, a successful
finalize reports `grandTotal = Σ byItem.total = 1.00` while
`Σ byParticipant.amountOwed = 2.00`. -/
theorem duplicate_roster_totals_counterexample :
    (finalize
        [{ uniqueId := "A", username := "A" }, { uniqueId := "A", username := "A" }]
        [some { id := "i1", name := "x", price := some 1, unitPrice := none,
                totalPrice := none, quantity := some 1, kind := none,
                splitMode := some .equal, perPersonCount := none,
                assignedTo := some ["A"] }]).map
      (fun res => (res.grandTotal, (res.byItem.map (·.2)).sum,
        (res.byParticipant.map (·.amountOwed)).sum))
      = .ok ((1 : ℚ), (1 : ℚ), (2 : ℚ)) ∧ (1 : ℚ) ≠ 2 :=
  ⟨by with_unfolding_all decide, by decide⟩

/-- C3 (amended): after every successful finalize call whose roster
uniqueIds are pairwise distinct, the returned totals satisfy
`grandTotal = Σ byItem.total = Σ byParticipant.amountOwed`, with
rounding applied at every accumulation step (a no-op on the whole-cent
intermediate sums). -/
theorem finalize_totals_consistent (pList : List ParticipantInfo)
    (items : List (Option ItemInput)) (res : FinalizeResult)
    (hnodup : (pList.map (·.uniqueId)).Nodup)
    (h : finalize pList items = .ok res) :
    res.grandTotal = (res.byItem.map (·.2)).sum ∧
    res.grandTotal = (res.byParticipant.map (·.amountOwed)).sum := by
  obtain ⟨_, _, allocs, ha, _, hbyItem, hgrand, hbyPart⟩ := finalize_ok_inv h
  have hfacts := (allocItems_ok_inv _ items allocs ha).1
  have hcentAll : ∀ a ∈ allocs, Cent a.shareAmount := fun a hmem => (hfacts a hmem).1
  obtain ⟨icent, _, _, isum⟩ :=
    foldShares_inv (·.itemId) allocs [] (by intro v hv; simp at hv) (by simp) hcentAll
  obtain ⟨pcent, pknd, pksub, psum⟩ :=
    foldShares_inv (·.participantId) allocs []
      (by intro v hv; simp at hv) (by simp) hcentAll
  have hsnd : ∀ l : List (String × ℚ), (l.map fun x => x.2) = l.map Prod.snd :=
    fun l => rfl
  have hshcent : ∀ x ∈ allocs.map (·.shareAmount), Cent x := by
    intro x hx
    obtain ⟨a, hmem, rfl⟩ := List.mem_map.mp hx
    exact hcentAll a hmem
  have hItemVals : (List.map Prod.snd (foldShares (·.itemId) [] allocs)).sum
      = (allocs.map (·.shareAmount)).sum := by
    rw [isum]
    simp
  have hgrand₂ : res.grandTotal = (allocs.map (·.shareAmount)).sum := by
    rw [hgrand, hsnd,
      show byItemTotals allocs = foldShares (·.itemId) [] allocs from rfl,
      hItemVals]
    exact round2_eq_self (cent_list_sum hshcent)
  constructor
  · rw [hbyItem, hsnd,
      show byItemTotals allocs = foldShares (·.itemId) [] allocs from rfl,
      hItemVals]
    exact hgrand₂
  · rw [hgrand₂, hbyPart]
    have hmap : (pList.map fun p =>
        ({ uniqueId := p.uniqueId, username := p.username,
           amountOwed := round2 ((alookup (byParticipantTotals allocs) p.uniqueId).getD 0) }
          : ByParticipantEntry)).map (·.amountOwed)
        = pList.map fun p =>
            round2 ((alookup (byParticipantTotals allocs) p.uniqueId).getD 0) := by
      rw [List.map_map]
      rfl
    rw [hmap]
    have hvals : ∀ u : String,
        Cent ((alookup (byParticipantTotals allocs) u).getD 0) := by
      intro u
      cases halo : alookup (byParticipantTotals allocs) u with
      | none => simpa using cent_zero
      | some v =>
          simp only [Option.getD_some]
          exact pcent v (alookup_mem_values halo)
    have hmap₂ : (pList.map fun p =>
        round2 ((alookup (byParticipantTotals allocs) p.uniqueId).getD 0))
        = pList.map fun p =>
            (alookup (byParticipantTotals allocs) p.uniqueId).getD 0 :=
      List.map_congr_left fun p _ => round2_eq_self (hvals p.uniqueId)
    rw [hmap₂]
    have hmap₃ : (pList.map fun p =>
        (alookup (byParticipantTotals allocs) p.uniqueId).getD 0)
        = (pList.map (·.uniqueId)).map fun u =>
            (alookup (byParticipantTotals allocs) u).getD 0 := by
      rw [List.map_map]
      rfl
    rw [hmap₃]
    rw [alookup_sum (byParticipantTotals allocs) (pList.map (·.uniqueId)) hnodup
      (by rw [show byParticipantTotals allocs = foldShares (·.participantId) [] allocs from rfl]; exact pknd)
      ?_]
    · rw [show byParticipantTotals allocs = foldShares (·.participantId) [] allocs from rfl]
      rw [psum]
      simp
    · intro x hx
      rw [show byParticipantTotals allocs = foldShares (·.participantId) [] allocs from rfl] at hx
      rcases pksub x hx with hx₂ | hx₂
      · simp at hx₂
      · obtain ⟨a, hmem, rfl⟩ := List.mem_map.mp hx₂
        have := (hfacts a hmem).2
        have hm : a.participantId ∈ pList.map (·.uniqueId) := by simpa using this
        exact hm

/-- Witness for C3 (amended): price 2.00 split equally between the
distinct participants A and B. -/
theorem finalize_totals_consistent_witness :
    ∃ res, finalize
        [{ uniqueId := "A", username := "A" }, { uniqueId := "B", username := "B" }]
        [some { id := "i1", name := "x", price := some 2, unitPrice := none,
                totalPrice := none, quantity := some 1, kind := none,
                splitMode := some .equal, perPersonCount := none,
                assignedTo := some ["A", "B"] }] = .ok res ∧
      res.grandTotal = (res.byItem.map (·.2)).sum ∧
      res.grandTotal = (res.byParticipant.map (·.amountOwed)).sum := by
  have h : finalize
      [{ uniqueId := "A", username := "A" }, { uniqueId := "B", username := "B" }]
      [some { id := "i1", name := "x", price := some 2, unitPrice := none,
              totalPrice := none, quantity := some 1, kind := none,
              splitMode := some .equal, perPersonCount := none,
              assignedTo := some ["A", "B"] }] = .ok
        { grandTotal := 2, byItem := [("i1", 2)],
          byParticipant :=
            [{ uniqueId := "A", username := "A", amountOwed := 1 },
             { uniqueId := "B", username := "B", amountOwed := 1 }],
          allocations :=
            [{ itemId := "i1", participantId := "A", shareUnits := none,
               shareRatio := some (1/2), shareAmount := 1 },
             { itemId := "i1", participantId := "B", shareUnits := none,
               shareRatio := some (1/2), shareAmount := 1 }] } := by
    with_unfolding_all decide
  exact ⟨_, h, finalize_totals_consistent _ _ _ (by decide) h⟩

theorem countSum_ok_nonneg (pids : List String) :
    ∀ (l : List (String × ℚ)) (s : ℚ), countSum pids l = .ok s →
      ∀ pu ∈ l, 0 ≤ pu.2 := by
  intro l
  induction l with
  | nil => intro s _ pu hpu; simp at hpu
  | cons hd rest ih =>
      intro s h pu hpu
      obtain ⟨pid, u⟩ := hd
      simp only [countSum] at h
      split at h
      · exact absurd h (by simp)
      · split at h
        · exact absurd h (by simp)
        · next hneg =>
            cases hc : countSum pids rest with
            | error e => rw [hc] at h; exact absurd h (by simp)
            | ok s₂ =>
                rcases List.mem_cons.mp hpu with rfl | hmem₂
                · exact not_lt.mp hneg
                · exact ih s₂ hc pu hmem₂

/-- A successful allocation certifies the spec-side validity predicate. -/
theorem allocItem_ok_valid {pids : List String} {it : ItemInput} {as : List Alloc}
    (h : allocItem pids it = .ok as) : validItemSpec pids it = true := by
  obtain ⟨up, qty, hup, hq, hid, hname, hqty, hbr⟩ := allocItem_ok_inv h
  rw [validItemSpec, hup, hq]
  rcases hbr with ⟨hmode, hc, _⟩ | ⟨hmode, hne, hall, _⟩
  · rw [hmode]
    simp only [Bool.and_eq_true, Bool.not_eq_true', Bool.or_eq_false_iff,
      decide_eq_false_iff_not, List.all_eq_true, decide_eq_true_eq]
    refine ⟨⟨⟨by simpa using hid, by simpa using hname⟩, by simpa using not_le.mpr hqty⟩,
      fun pu hpu => ?_, (countSum_ok_sum pids _ qty hc).symm⟩
    exact ⟨countSum_ok_mem pids _ qty hc pu hpu, countSum_ok_nonneg pids _ qty hc pu hpu⟩
  · rw [hmode]
    simp only [Bool.and_eq_true, Bool.not_eq_true', Bool.or_eq_false_iff,
      decide_eq_false_iff_not, List.isEmpty_eq_false]
    exact ⟨⟨⟨by simpa using hid, by simpa using hname⟩, by simpa using not_le.mpr hqty⟩,
      hne, hall⟩

/-- C4: a `count`-split item whose (non-negative, integral) units do
not sum to its quantity makes the whole finalize call fail: no result
is returned. -/
theorem count_unit_sum_mismatch_rejected (pList : List ParticipantInfo)
    (items : List (Option ItemInput)) (it : ItemInput) (qty : ℚ)
    (counts : List (String × ℚ))
    (hmem : some it ∈ items)
    (hq : it.quantity = some qty)
    (hmode : inferSplitMode it = .count)
    (hcounts : it.perPersonCount = some counts)
    (_hnn : ∀ pu ∈ counts, 0 ≤ pu.2)
    (_hint : ∀ pu ∈ counts, ∃ n : ℕ, pu.2 = (n : ℚ))
    (hsum : (counts.map (·.2)).sum ≠ qty) :
    isOkE (finalize pList items) = false := by
  cases hres : finalize pList items with
  | error e => rfl
  | ok res =>
      exfalso
      obtain ⟨_, _, allocs, ha, _⟩ := finalize_ok_inv hres
      obtain ⟨as, has⟩ := (allocItems_ok_inv _ items allocs ha).2 it hmem
      obtain ⟨up₂, qty₂, _, hq₂, _, _, _, hbr⟩ := allocItem_ok_inv has
      rw [hq] at hq₂
      obtain rfl : qty = qty₂ := by injection hq₂
      rcases hbr with ⟨_, hc, _⟩ | ⟨hmode₂, _, _, _⟩
      · have hs := countSum_ok_sum _ _ qty hc
        rw [hcounts, Option.getD_some] at hs
        exact hsum hs.symm
      · rw [hmode] at hmode₂
        exact absurd hmode₂ (by simp)

/-- Witness for C4: quantity 2 but a single unit assigned to A. -/
theorem count_unit_sum_mismatch_rejected_witness :
    isOkE (finalize [{ uniqueId := "A", username := "A" }]
      [some { id := "i1", name := "x", price := some 1, unitPrice := none,
              totalPrice := none, quantity := some 2, kind := none,
              splitMode := some .count,
              perPersonCount := some [("A", 1)], assignedTo := none }]) = false :=
  count_unit_sum_mismatch_rejected _ _
    { id := "i1", name := "x", price := some 1, unitPrice := none,
      totalPrice := none, quantity := some 2, kind := none,
      splitMode := some .count,
      perPersonCount := some [("A", 1)], assignedTo := none }
    2 [("A", 1)] (by decide) rfl rfl rfl
    (by decide)
    (fun pu hpu => by
      rcases List.mem_singleton.mp hpu with rfl
      exact ⟨1, by norm_num⟩)
    (by with_unfolding_all decide)

/-- C5 counterexample: an item with the non-positive resolved unit
price 0 is not rejected — the finalize call succeeds (the code checks
only `Number.isFinite(unitPrice)`, never positivity). -/
theorem nonpositive_price_accepted_counterexample :
    resolveUnitPrice
      { id := "i1", name := "x", price := some 0, unitPrice := none,
        totalPrice := none, quantity := some 1, kind := none,
        splitMode := some .equal, perPersonCount := none,
        assignedTo := some ["A"] } = some 0 ∧
    isOkE (finalize [{ uniqueId := "A", username := "A" }]
      [some { id := "i1", name := "x", price := some 0, unitPrice := none,
              totalPrice := none, quantity := some 1, kind := none,
              splitMode := some .equal, perPersonCount := none,
              assignedTo := some ["A"] }]) = true :=
  ⟨by with_unfolding_all decide, by with_unfolding_all decide⟩

/-- C5 (amended): a finalize call succeeds exactly when the roster and
item arrays are non-empty and every non-object-shaped entry is skipped
while every remaining item passes validation (non-empty id and name, a
resolvable — not necessarily positive — unit price, positive quantity,
known participants, and, for `count`, non-negative units summing to the
quantity); otherwise the call is rejected whole, so no partial
allocation is ever returned. -/
theorem finalize_ok_characterization (pList : List ParticipantInfo)
    (items : List (Option ItemInput)) :
    isOkE (finalize pList items) = true ↔
      (pList ≠ [] ∧ items ≠ [] ∧
       ∀ it : ItemInput, some it ∈ items →
         validItemSpec (pList.map (·.uniqueId)) it = true) := by
  constructor
  · intro h
    cases hres : finalize pList items with
    | error e => rw [hres] at h; exact absurd h (by simp [isOkE])
    | ok res =>
        obtain ⟨hp, hi, allocs, ha, _⟩ := finalize_ok_inv hres
        refine ⟨hp, hi, fun it hit => ?_⟩
        obtain ⟨as, has⟩ := (allocItems_ok_inv _ items allocs ha).2 it hit
        exact allocItem_ok_valid has
  · rintro ⟨hp, hi, hv⟩
    obtain ⟨allocs, ha⟩ := allocItems_ok_of_valid (pList.map (·.uniqueId)) items hv
    rw [finalize, if_neg hp, if_neg hi, ha]
    rfl

/-- Witness for C5 (amended): a well-formed two-participant call is
accepted. -/
theorem finalize_ok_characterization_witness :
    isOkE (finalize
      [{ uniqueId := "A", username := "A" }, { uniqueId := "B", username := "B" }]
      [some { id := "i1", name := "x", price := some 2, unitPrice := none,
              totalPrice := none, quantity := some 3, kind := none,
              splitMode := some .equal, perPersonCount := none,
              assignedTo := some ["A", "B"] }]) = true :=
  (finalize_ok_characterization _ _).mpr
    ⟨by decide, by decide, fun it hit => by
      have h₁ : some it = some
          { id := "i1", name := "x", price := some 2, unitPrice := none,
            totalPrice := none, quantity := some 3, kind := none,
            splitMode := some .equal, perPersonCount := none,
            assignedTo := some ["A", "B"] } := List.mem_singleton.mp hit
      obtain rfl : it = _ := by injection h₁
      with_unfolding_all decide⟩

/-! ## Lemmas about the settlement store -/

theorem upsertHistory_keys (e : StoredEntry) :
    ∀ store : List StoredEntry,
      (upsertHistory store e).map (·.sessionId) =
        if e.sessionId ∈ store.map (·.sessionId) then store.map (·.sessionId)
        else store.map (·.sessionId) ++ [e.sessionId] := by
  intro store
  induction store with
  | nil => simp [upsertHistory]
  | cons o rest ih =>
      by_cases hk : o.sessionId = e.sessionId
      · simp only [upsertHistory, if_pos hk, List.map_cons]
        rw [if_pos (by simp [hk])]
        simp [hk]
      · simp only [upsertHistory, if_neg hk, List.map_cons]
        rw [ih]
        have hiff : (e.sessionId ∈ o.sessionId :: rest.map (·.sessionId)) ↔
            (e.sessionId ∈ rest.map (·.sessionId)) := by
          constructor
          · intro h
            rcases List.mem_cons.mp h with h | h
            · exact absurd h.symm hk
            · exact h
          · exact fun h => List.mem_cons_of_mem _ h
        by_cases hmem : e.sessionId ∈ rest.map (·.sessionId)
        · simp [hmem, hiff]
        · simp only [if_neg hmem, List.map_cons]
          rw [if_neg (by rw [hiff]; exact hmem)]
          simp

theorem upsertHistory_keys_nodup {store : List StoredEntry} (e : StoredEntry)
    (h : (store.map (·.sessionId)).Nodup) :
    ((upsertHistory store e).map (·.sessionId)).Nodup := by
  rw [upsertHistory_keys]
  by_cases hmem : e.sessionId ∈ store.map (·.sessionId)
  · simpa [hmem] using h
  · simp only [if_neg hmem]
    rw [List.nodup_append]
    exact ⟨h, List.nodup_singleton _, by simpa using fun h₂ => hmem h₂⟩

/-- In a store with unique session ids, the (unique) row carrying the
upserted session id holds the upserted data — everything except
`creatorId`, which the `update` block does not touch. -/
theorem upsertHistory_data (e : StoredEntry) :
    ∀ store : List StoredEntry, (store.map (·.sessionId)).Nodup →
      ∀ o ∈ upsertHistory store e, o.sessionId = e.sessionId →
        o.sessionName = e.sessionName ∧ o.payload = e.payload ∧
        o.participantUniqueIds = e.participantUniqueIds ∧
        o.grandTotal = e.grandTotal ∧ o.finalizedAt = e.finalizedAt := by
  intro store
  induction store with
  | nil =>
      intro _ o ho _
      simp only [upsertHistory, List.mem_singleton] at ho
      subst ho
      exact ⟨rfl, rfl, rfl, rfl, rfl⟩
  | cons hd rest ih =>
      intro hnd o ho hosid
      rw [List.map_cons, List.nodup_cons] at hnd
      by_cases hk : hd.sessionId = e.sessionId
      · rw [upsertHistory, if_pos hk] at ho
        rcases List.mem_cons.mp ho with rfl | ho₂
        · exact ⟨rfl, rfl, rfl, rfl, rfl⟩
        · exfalso
          apply hnd.1
          rw [hk, ← hosid]
          exact List.mem_map_of_mem (·.sessionId) ho₂
      · rw [upsertHistory, if_neg hk] at ho
        rcases List.mem_cons.mp ho with rfl | ho₂
        · exact absurd hosid hk
        · exact ih hnd.2 o ho₂ hosid

/-- C6: finalizing the same session twice leaves exactly one stored
snapshot for that `sessionId`, and its contents reflect the most recent
call. -/
theorem snapshot_upsert_unique (store : List StoredEntry) (e₁ e₂ : StoredEntry)
    (hnodup : (store.map (·.sessionId)).Nodup)
    (hsid : e₁.sessionId = e₂.sessionId) :
    ((upsertHistory (upsertHistory store e₁) e₂).countP
        (fun o => o.sessionId == e₂.sessionId)) = 1 ∧
    ∀ o ∈ upsertHistory (upsertHistory store e₁) e₂,
      o.sessionId = e₂.sessionId →
        o.sessionName = e₂.sessionName ∧ o.payload = e₂.payload ∧
        o.participantUniqueIds = e₂.participantUniqueIds ∧
        o.grandTotal = e₂.grandTotal ∧ o.finalizedAt = e₂.finalizedAt := by
  have hnd₁ : ((upsertHistory store e₁).map (·.sessionId)).Nodup :=
    upsertHistory_keys_nodup e₁ hnodup
  constructor
  · have hcnt : ∀ (l : List StoredEntry) (k : ℤ),
        l.countP (fun o => o.sessionId == k) = (l.map (·.sessionId)).count k := by
      intro l k
      rw [List.count, List.countP_map]
      rfl
    rw [hcnt, upsertHistory_keys]
    have hmem₁ : e₂.sessionId ∈ (upsertHistory store e₁).map (·.sessionId) := by
      rw [upsertHistory_keys, ← hsid]
      by_cases hmem : e₁.sessionId ∈ store.map (·.sessionId)
      · simp [hmem]
      · simp [hmem]
    rw [if_pos hmem₁]
    exact List.count_eq_one_of_mem hnd₁ hmem₁
  · exact upsertHistory_data e₂ (upsertHistory store e₁) hnd₁

/-- Witness for C6: two upserts of session 7 into an empty store. -/
theorem snapshot_upsert_unique_witness :
    ((upsertHistory (upsertHistory []
        { sessionId := 7, creatorId := 1, sessionName := some "s",
          payload := { grandTotal := 1, byItem := [], byParticipant := [],
                       allocations := [] },
          participantUniqueIds := ["A"], grandTotal := 1, finalizedAt := 10 })
        { sessionId := 7, creatorId := 1, sessionName := some "t",
          payload := { grandTotal := 2, byItem := [], byParticipant := [],
                       allocations := [] },
          participantUniqueIds := ["B"], grandTotal := 2, finalizedAt := 20 }).countP
      (fun o => o.sessionId == (7 : ℤ))) = 1 ∧
    ∀ o ∈ upsertHistory (upsertHistory []
        { sessionId := 7, creatorId := 1, sessionName := some "s",
          payload := { grandTotal := 1, byItem := [], byParticipant := [],
                       allocations := [] },
          participantUniqueIds := ["A"], grandTotal := 1, finalizedAt := 10 })
        { sessionId := 7, creatorId := 1, sessionName := some "t",
          payload := { grandTotal := 2, byItem := [], byParticipant := [],
                       allocations := [] },
          participantUniqueIds := ["B"], grandTotal := 2, finalizedAt := 20 },
      o.sessionId = (7 : ℤ) →
        o.sessionName = some "t" ∧
        o.payload = { grandTotal := 2, byItem := [], byParticipant := [],
                      allocations := [] } ∧
        o.participantUniqueIds = ["B"] ∧ o.grandTotal = 2 ∧ o.finalizedAt = 20 :=
  snapshot_upsert_unique []
    { sessionId := 7, creatorId := 1, sessionName := some "s",
      payload := { grandTotal := 1, byItem := [], byParticipant := [],
                   allocations := [] },
      participantUniqueIds := ["A"], grandTotal := 1, finalizedAt := 10 }
    { sessionId := 7, creatorId := 1, sessionName := some "t",
      payload := { grandTotal := 2, byItem := [], byParticipant := [],
                   allocations := [] },
      participantUniqueIds := ["B"], grandTotal := 2, finalizedAt := 20 }
    (by simp) rfl

/-! ## Lemmas about currency normalization -/

/-- Every key of the `SYMBOL_TO_ISO` table is fixed by `jsToUpper`. -/
theorem tableKeysUpper : ∀ p ∈ SYMBOL_TO_ISO, jsToUpper p.1 = p.1 := by decide

theorem lookupIso_some_key {s c : String} (h : lookupIso s = some c) :
    ∃ p ∈ SYMBOL_TO_ISO, p.1 = s := by
  rw [lookupIso] at h
  cases hf : SYMBOL_TO_ISO.find? fun p => p.1 == s with
  | none => rw [hf] at h; exact absurd h (by simp)
  | some p =>
      refine ⟨p, List.mem_of_find?_eq_some hf, ?_⟩
      have := List.find?_some hf
      simpa using this

theorem dropWhile_eq_self_of_not {p : Char → Bool} :
    ∀ l : List Char, (∀ c ∈ l, p c = false) → l.dropWhile p = l := by
  intro l hl
  cases l with
  | nil => rfl
  | cons x xs =>
      rw [List.dropWhile_cons]
      simp [hl x (by simp)]

theorem jsTrim_eq_self {s : String}
    (h : ∀ c ∈ s.data, c.isWhitespace = false) : jsTrim s = s := by
  obtain ⟨data⟩ := s
  rw [jsTrim]
  rw [dropWhile_eq_self_of_not _ h]
  rw [dropWhile_eq_self_of_not _ fun c hc => h c (List.mem_reverse.mp hc)]
  rw [List.reverse_reverse]

theorem firstCurrency_default :
    ∀ l : List (Option String), (∀ c ∈ l, normalizeCurrencyCode c = none) →
      firstCurrency l = DEFAULT_CURRENCY_CODE := by
  intro l
  induction l with
  | nil => intro _; rfl
  | cons c rest ih =>
      intro hl
      rw [firstCurrency, hl c (by simp)]
      exact ih fun x hx => hl x (by simp [hx])

/-- C7: currency normalization maps `"€"` to `"EUR"`, both `"rub"` and
`"руб"` to `"RUB"`, accepts 3-letter codes case-insensitively (any
string that uppercases to three `A-Z` letters and is not a special
table key is returned uppercased), and `extractCurrencyCode` returns
the sentinel `"UNKNOWN"` whenever no candidate field normalizes. -/
theorem currency_normalization :
    normalizeCurrencyCode (some "€") = some "EUR" ∧
    normalizeCurrencyCode (some "rub") = some "RUB" ∧
    normalizeCurrencyCode (some "руб") = some "RUB" ∧
    (∀ s : String, isUpper3 (jsToUpper s) = true → lookupIso (jsToUpper s) = none →
      normalizeCurrencyCode (some s) = some (jsToUpper s)) ∧
    (∀ r : RawReceipt, (∀ c ∈ currencyCandidates r, normalizeCurrencyCode c = none) →
      extractCurrencyCode r = "UNKNOWN") := by
  refine ⟨by decide, by decide, by decide, ?_, ?_⟩
  · intro s h3 hlk
    have hdata : (jsToUpper s).data = s.data.map jsCharUpper := rfl
    have h3₂ := h3
    simp only [isUpper3, hdata, Bool.and_eq_true, decide_eq_true_eq,
      List.all_eq_true, List.length_map] at h3₂
    obtain ⟨hlen, hup⟩ := h3₂
    have hchars : ∀ c ∈ s.data, 'A' ≤ jsCharUpper c ∧ jsCharUpper c ≤ 'Z' :=
      fun c hc => hup (jsCharUpper c) (List.mem_map_of_mem jsCharUpper hc)
    have hnws : ∀ c ∈ s.data, c.isWhitespace = false := by
      intro c hc
      cases hws : c.isWhitespace with
      | false => rfl
      | true =>
          exfalso
          have hcs : c = ' ' ∨ c = '\t' ∨ c = '\r' ∨ c = '\n' := by
            revert hws
            rw [Char.isWhitespace]
            simp only [Bool.or_eq_true, decide_eq_true_eq]
            intro hws
            tauto
          have h₂ := hchars c hc
          rcases hcs with rfl | rfl | rfl | rfl <;> revert h₂ <;> decide
    have htrim : jsTrim s = s := jsTrim_eq_self hnws
    have hne : ¬(s = "") := by
      intro h
      rw [h] at hlen
      exact absurd hlen (by decide)
    have hlk₀ : lookupIso s = none := by
      cases hq : lookupIso s with
      | none => rfl
      | some c =>
          exfalso
          obtain ⟨p, hp, hps⟩ := lookupIso_some_key hq
          have hupk : jsToUpper p.1 = p.1 := tableKeysUpper p hp
          rw [hps] at hupk
          rw [hupk, hq] at hlk
          exact Option.noConfusion hlk
    simp only [normalizeCurrencyCode, htrim, if_neg hne, hlk₀, hlk, h3, if_true]
  · intro r hr
    rw [extractCurrencyCode]
    exact firstCurrency_default _ hr

/-- Witness for C7: the lower-case code `"pln"` is accepted as `"PLN"`,
and a receipt whose only currency field holds the unrecognized token
`"zzzz"` yields `"UNKNOWN"`. -/
theorem currency_normalization_witness :
    normalizeCurrencyCode (some "pln") = some "PLN" ∧
    extractCurrencyCode
      { items := [], summaryCurrency := some "zzzz", summaryCurrencyCode := none,
        summaryCurrency_code := none, summaryIsoCurrency := none, currency := none,
        currencyCode := none, currency_code := none, summaryGrandTotal := none }
      = "UNKNOWN" := by
  constructor
  · have h := currency_normalization.2.2.2.1 "pln" (by decide) (by decide)
    rw [show jsToUpper "pln" = "PLN" from by decide] at h
    exact h
  · exact currency_normalization.2.2.2.2 _ (by decide)

/-! ## Claims about the gateway fallback and normalization -/

theorem tryCandidates_all_fail :
    ∀ attempts : List (Option RawReceipt), (∀ a ∈ attempts, a = none) →
      tryCandidates attempts = mockParse := by
  intro attempts
  induction attempts with
  | nil => intro _; rfl
  | cons a rest ih =>
      intro hfail
      have ha : a = none := hfail a (by simp)
      subst ha
      rw [tryCandidates]
      exact ih fun x hx => hfail x (by simp [hx])

/-- C8: without a provider key `parseReceipt` returns the fixed mock
result for every input — source `mock`, the fixed item list, and a
`grandTotal` that is the sum of those item totals (15.70) — and the
same mock result is returned when every model candidate fails. -/
theorem mock_fallback :
    (∀ attempts : List (Option RawReceipt), parseReceipt none attempts = mockParse) ∧
    mockParse.source = .mock ∧
    mockParse.items = mockItems ∧
    mockParse.summary.grandTotal = (mockItems.map (·.totalPrice)).sum ∧
    mockParse.summary.grandTotal = 157/10 ∧
    (∀ (key : Option String) (attempts : List (Option RawReceipt)),
      (∀ a ∈ attempts, a = none) → parseReceipt key attempts = mockParse) := by
  refine ⟨fun attempts => rfl, rfl, rfl, rfl, by with_unfolding_all decide, ?_⟩
  intro key attempts hfail
  cases key with
  | none => rfl
  | some k =>
      rw [parseReceipt]
      exact tryCandidates_all_fail attempts hfail

/-- Witness for C8: a keyless call with a decodable attempt still
returns the mock, as does a keyed call whose candidates all fail. -/
theorem mock_fallback_witness :
    parseReceipt none
      [some { items := [], summaryCurrency := none, summaryCurrencyCode := none,
              summaryCurrency_code := none, summaryIsoCurrency := none,
              currency := none, currencyCode := none, currency_code := none,
              summaryGrandTotal := some 5 }] = mockParse ∧
    parseReceipt (some "key") [none, none] = mockParse :=
  ⟨mock_fallback.1 _, mock_fallback.2.2.2.2.2 (some "key") [none, none] (by decide)⟩

/-- C9: model-output normalization — quantity defaults to 1 when
missing (or the falsy 0), `unitPrice` falls back to the legacy `price`
field, `totalPrice` is computed as `unitPrice × quantity` when absent,
all money values are rounded to 2 decimals, and the summary
`grandTotal` is recomputed as the rounded sum of the normalized item
totals, ignoring the summary total reported by the model. -/
theorem model_output_normalization :
    (∀ r : RawReceipt,
      (safeParseNormalize r).items = normalizeItems 0 r.items ∧
      (safeParseNormalize r).summary.grandTotal
        = round2 (((normalizeItems 0 r.items).map (·.totalPrice)).sum) ∧
      ∀ g, (safeParseNormalize { r with summaryGrandTotal := g }).summary.grandTotal
        = (safeParseNormalize r).summary.grandTotal) ∧
    (∀ (idx : ℕ) (itr : RawItem),
      (itr.quantity = none → (normalizeItem idx itr).quantity = 1) ∧
      (∀ q : ℚ, itr.quantity = some q → q ≠ 0 →
        (normalizeItem idx itr).quantity = q) ∧
      (∀ p : ℚ, itr.unitPrice = none → itr.price = some p →
        (normalizeItem idx itr).unitPrice = round2 p) ∧
      (∀ u : ℚ, itr.unitPrice = some u →
        (normalizeItem idx itr).unitPrice = round2 u) ∧
      (∀ t : ℚ, itr.totalPrice = some t →
        (normalizeItem idx itr).totalPrice = round2 t) ∧
      (∀ u q : ℚ, itr.totalPrice = none → itr.unitPrice = some u →
        itr.quantity = some q → q ≠ 0 →
        (normalizeItem idx itr).totalPrice = round2 (u * q)) ∧
      Cent (normalizeItem idx itr).unitPrice ∧
      Cent (normalizeItem idx itr).totalPrice) := by
  constructor
  · intro r
    exact ⟨rfl, rfl, fun g => rfl⟩
  · intro idx itr
    refine ⟨?_, ?_, ?_, ?_, ?_, ?_, round2_cent _, round2_cent _⟩
    · intro h
      simp [normalizeItem, h]
    · intro q hq hq₀
      simp [normalizeItem, hq, hq₀]
    · intro p hu hp
      simp [normalizeItem, hu, hp]
    · intro u hu
      simp [normalizeItem, hu]
    · intro t ht
      simp [normalizeItem, ht]
    · intro u q ht hu hq hq₀
      simp [normalizeItem, ht, hu, hq, hq₀]

/-- Witness for C9 at a concrete decoded item: quantity missing,
`price` supplying the unit price, `totalPrice` absent, and a bogus
model summary total that is ignored. -/
theorem model_output_normalization_witness :
    (normalizeItem 0
      { id := some "1", name := some "Tea", quantity := none, price := some (5/2),
        unitPrice := none, totalPrice := none, kind := none, currency := none,
        currencyCode := none, currency_code := none }).quantity = 1 ∧
    (normalizeItem 0
      { id := some "1", name := some "Tea", quantity := none, price := some (5/2),
        unitPrice := none, totalPrice := none, kind := none, currency := none,
        currencyCode := none, currency_code := none }).unitPrice = round2 (5/2) ∧
    (safeParseNormalize
      { items := [], summaryCurrency := none, summaryCurrencyCode := none,
        summaryCurrency_code := none, summaryIsoCurrency := none, currency := none,
        currencyCode := none, currency_code := none,
        summaryGrandTotal := some 999 }).summary.grandTotal
      = (safeParseNormalize
      { items := [], summaryCurrency := none, summaryCurrencyCode := none,
        summaryCurrency_code := none, summaryIsoCurrency := none, currency := none,
        currencyCode := none, currency_code := none,
        summaryGrandTotal := none }).summary.grandTotal :=
  ⟨(model_output_normalization.2 0 _).1 rfl,
   (model_output_normalization.2 0 _).2.2.1 (5/2) rfl rfl,
   (model_output_normalization.1
      { items := [], summaryCurrency := none, summaryCurrencyCode := none,
        summaryCurrency_code := none, summaryIsoCurrency := none, currency := none,
        currencyCode := none, currency_code := none,
        summaryGrandTotal := none }).2.2 (some 999)⟩

/-! ## The history query -/

/-- C10 counterexample: the returned history entry reports the session
`grandTotal` (10.00) and the raw payload, but no field extracted from
`byParticipant` with the own owed amount of the queried participant (3.00) —
the only monetary scalar in the entry differs from it. -/
theorem history_no_owed_amount_counterexample :
    historyQuery
      [{ sessionId := 1, creatorId := 1, sessionName := some "s",
         payload :=
           { grandTotal := 10, byItem := [("i1", 10)],
             byParticipant :=
               [{ uniqueId := "A", username := "A", amountOwed := 7 },
                { uniqueId := "B", username := "B", amountOwed := 3 }],
             allocations := [] },
         participantUniqueIds := ["A", "B"], grandTotal := 10, finalizedAt := 5 }]
      2 "B" false none
      = .ok
        [{ sessionId := 1, sessionName := some "s", finalizedAt := 5,
           grandTotal := 10, participantUniqueIds := ["A", "B"],
           isCreator := false,
           payload :=
             { grandTotal := 10, byItem := [("i1", 10)],
               byParticipant :=
                 [{ uniqueId := "A", username := "A", amountOwed := 7 },
                  { uniqueId := "B", username := "B", amountOwed := 3 }],
               allocations := [] } }] ∧
    (((({ grandTotal := 10, byItem := [("i1", 10)],
          byParticipant :=
            [{ uniqueId := "A", username := "A", amountOwed := 7 },
             { uniqueId := "B", username := "B", amountOwed := 3 }],
          allocations := [] } : FinalizeResult)).byParticipant.find?
        (fun b => b.uniqueId == "B")).map (·.amountOwed)) = some 3 ∧
    (10 : ℚ) ≠ 3 :=
  ⟨by with_unfolding_all decide, by with_unfolding_all decide, by decide⟩

/-- C10 (amended): the history query returns the matching snapshots
sorted by `finalizedAt` descending — at most the latest 5 when neither
`all` nor a `limit` is given — and each returned entry is the stored
row projected (session id and name, `finalizedAt`, the session
`grandTotal`, participant ids, an `isCreator` flag, and the full stored
payload); the own owed amount of the queried participant is not separately
extracted. -/
theorem history_query_shape (store : List StoredEntry) (requesterId : ℤ)
    (uid : String) (fetchAll : Bool) (limitParam : Option ℤ)
    (out : List HistoryRespEntry)
    (h : historyQuery store requesterId uid fetchAll limitParam = .ok out) :
    List.Pairwise (fun a b : HistoryRespEntry => b.finalizedAt ≤ a.finalizedAt) out ∧
    (fetchAll = false → limitParam = none → out.length ≤ 5) ∧
    (∀ resp ∈ out, ∃ e ∈ store, historyMatches requesterId uid e = true ∧
      resp = mkHistoryResp requesterId e) := by
  have hsorted : List.Sorted finAtGE
      ((store.filter (historyMatches requesterId uid)).insertionSort finAtGE) :=
    List.sorted_insertionSort finAtGE _
  have hperm := List.perm_insertionSort finAtGE (store.filter (historyMatches requesterId uid))
  have hout : ∃ n : Option ℕ,
      out = ((match n with
        | none => (store.filter (historyMatches requesterId uid)).insertionSort finAtGE
        | some k => ((store.filter (historyMatches requesterId uid)).insertionSort finAtGE).take k)).map
        (mkHistoryResp requesterId) ∧
      (fetchAll = false → limitParam = none → n = some 5) := by
    cases fetchAll with
    | true =>
        simp only [historyQuery, if_true, Except.ok.injEq] at h
        exact ⟨none, h.symm, fun hc _ => absurd hc (by simp)⟩
    | false =>
        cases limitParam with
        | none =>
            simp only [historyQuery, Bool.false_eq_true, if_false,
              Except.ok.injEq] at h
            exact ⟨some 5, h.symm, fun _ _ => rfl⟩
        | some p =>
            simp only [historyQuery, Bool.false_eq_true, if_false] at h
            split at h
            · exact absurd h (by simp)
            · simp only [Except.ok.injEq] at h
              exact ⟨some (min p 50).toNat, h.symm, fun _ hc => absurd hc (by simp)⟩
  obtain ⟨n, hn, hn₅⟩ := hout
  have hsub : ∀ k : Option ℕ, List.Sublist ((match k with
      | none => (store.filter (historyMatches requesterId uid)).insertionSort finAtGE
      | some j => ((store.filter (historyMatches requesterId uid)).insertionSort finAtGE).take j))
      ((store.filter (historyMatches requesterId uid)).insertionSort finAtGE) := by
    intro k
    cases k with
    | none => exact List.Sublist.refl _
    | some j => exact List.take_sublist j _
  refine ⟨?_, ?_, ?_⟩
  · rw [hn]
    rw [List.pairwise_map]
    exact hsorted.sublist (hsub n)
  · intro hfa hlp
    rw [hn₅ hfa hlp] at hn
    rw [hn, List.length_map]
    exact List.length_take_le 5 _
  · intro resp hresp
    rw [hn] at hresp
    obtain ⟨e, he, rfl⟩ := List.mem_map.mp hresp
    have he₂ : e ∈ (store.filter (historyMatches requesterId uid)).insertionSort finAtGE :=
      (hsub n).subset he
    have he₃ : e ∈ store.filter (historyMatches requesterId uid) := hperm.mem_iff.mp he₂
    obtain ⟨he₄, he₅⟩ := List.mem_filter.mp he₃
    exact ⟨e, he₄, he₅, rfl⟩

/-- Witness for C10 (amended) on a two-snapshot store queried without
`all` or an explicit limit. -/
theorem history_query_shape_witness :
    ∃ out, historyQuery
      [{ sessionId := 1, creatorId := 2, sessionName := none,
         payload := { grandTotal := 1, byItem := [], byParticipant := [],
                      allocations := [] },
         participantUniqueIds := ["B"], grandTotal := 1, finalizedAt := 5 },
       { sessionId := 2, creatorId := 3, sessionName := none,
         payload := { grandTotal := 2, byItem := [], byParticipant := [],
                      allocations := [] },
         participantUniqueIds := ["B"], grandTotal := 2, finalizedAt := 9 }]
      2 "B" false none = .ok out ∧
      List.Pairwise (fun a b : HistoryRespEntry => b.finalizedAt ≤ a.finalizedAt) out ∧
      out.length ≤ 5 := by
  have h : historyQuery
      [{ sessionId := 1, creatorId := 2, sessionName := none,
         payload := { grandTotal := 1, byItem := [], byParticipant := [],
                      allocations := [] },
         participantUniqueIds := ["B"], grandTotal := 1, finalizedAt := 5 },
       { sessionId := 2, creatorId := 3, sessionName := none,
         payload := { grandTotal := 2, byItem := [], byParticipant := [],
                      allocations := [] },
         participantUniqueIds := ["B"], grandTotal := 2, finalizedAt := 9 }]
      2 "B" false none = .ok
        [{ sessionId := 2, sessionName := none, finalizedAt := 9, grandTotal := 2,
           participantUniqueIds := ["B"], isCreator := false,
           payload := { grandTotal := 2, byItem := [], byParticipant := [],
                        allocations := [] } },
         { sessionId := 1, sessionName := none, finalizedAt := 5, grandTotal := 1,
           participantUniqueIds := ["B"], isCreator := true,
           payload := { grandTotal := 1, byItem := [], byParticipant := [],
                        allocations := [] } }] := by
    with_unfolding_all decide
  obtain ⟨hpair, hlen, _⟩ := history_query_shape _ _ _ _ _ _ h
  exact ⟨_, h, hpair, hlen rfl rfl⟩

end Splitter
